import Mathlib

/-!
# Matrix multiplication benchmark (`entrega.c`)

A shallow embedding of `initializeMatrix`, `multiplyMatrices` and the
thread-count sweep of `main`, together with the properties of the
specification that concern them.

Conventions of the embedding:

* a C `int` is an `Int` in the range `INT_MIN .. INT_MAX` of a 32-bit `int`;
  the index expressions `a * b + c` of the source are evaluated by `indexExpr`,
  which returns `none` when the product or the sum leaves that range (signed
  overflow is undefined behaviour in C);
* a `double *` buffer is a `List` of scalars; every access goes through
  `readCell` / `writeCell`, which return `none` outside the buffer, so `none`
  stands for the undefined behaviour of an out-of-bounds access;
* the three buffers `A`, `B`, `C` of `multiplyMatrices` are distinct objects
  (they are three separate `malloc` blocks in `main`), kept together in `Mem`;
* the scalar type of the kernel is a parameter carrying the three operations
  the kernel uses (`0.0`, `+`, `*`); `Dbl` is the instance used wherever the
  value of a `double` operation matters: IEEE 754 binary64 with
  round-to-nearest-even, up to the sign of zero;
* a `for (int x = 0; x < n; x++)` loop runs over `loopRange n`.
-/

namespace Entrega

/-! ## Scalars -/

/-- Round a rational to the nearest integer, ties to the even one. -/
def rne (x : ℚ) : Int :=
  if x - ⌊x⌋ < 1 / 2 then ⌊x⌋
  else if 1 / 2 < x - ⌊x⌋ then ⌊x⌋ + 1
  else if ⌊x⌋ % 2 = 0 then ⌊x⌋ else ⌊x⌋ + 1

/-- Binary logarithm of a natural number by repeated halving, `fuel` bounding
the number of halvings. -/
def log2Fuel : Nat → Nat → Nat
  | 0, _ => 0
  | fuel + 1, n => if n < 2 then 0 else log2Fuel fuel (n / 2) + 1

/-- The largest `k` with `2 ^ k <= n` (`0` for `n = 0`). -/
def flog2 (n : Nat) : Nat := log2Fuel n n

/-- The least `k` with `n <= 2 ^ k`. -/
def clog2 (n : Nat) : Nat := if n ≤ 1 then 0 else flog2 (n - 1) + 1

/-- The binary exponent of a positive rational: the `e` with
`2 ^ e <= q < 2 ^ (e + 1)`. -/
def ilog2 (q : ℚ) : Int :=
  if 1 ≤ q then (flog2 ⌊q⌋₊ : Int) else -(clog2 ⌈q⁻¹⌉₊ : Int)

/-- The exponent of the unit in the last place of the binary64 numbers around
`q`: `e - 52` for `2 ^ e <= |q| < 2 ^ (e + 1)`, and `-1074` in the subnormal
range (`e < -1022`). -/
def ulpExp (q : ℚ) : Int := max (ilog2 |q|) (-1022) - 52

/-- Round-to-nearest-even of `q` on the binary64 grid, before the overflow
test: the nearest multiple of the unit in the last place. -/
def roundQ (q : ℚ) : ℚ := (rne (q / (2 : ℚ) ^ ulpExp q) : ℚ) * (2 : ℚ) ^ ulpExp q

/-- Values of a C `double` (IEEE 754 binary64): the finite values, the two
infinities and NaN.  A finite value is carried as the rational it denotes, so
`+0.0` and `-0.0` are the same value `fin 0`; `fin q` is a double when `q` is
on the binary64 grid (`isFinite`). -/
inductive Dbl where
  | fin (q : ℚ)
  | pinf
  | ninf
  | nan
  deriving DecidableEq

namespace Dbl

/-- The double nearest to the exact result `q` of an operation
(round-to-nearest-even); an infinity when the rounded magnitude reaches
`2 ^ 1024`. -/
def round (q : ℚ) : Dbl :=
  if (2 : ℚ) ^ 1024 ≤ roundQ q then pinf
  else if roundQ q ≤ -(2 : ℚ) ^ 1024 then ninf
  else fin (roundQ q)

/-- Addition of doubles (`+`). -/
def add : Dbl → Dbl → Dbl
  | nan, _ => nan
  | _, nan => nan
  | pinf, ninf => nan
  | ninf, pinf => nan
  | pinf, _ => pinf
  | _, pinf => pinf
  | ninf, _ => ninf
  | _, ninf => ninf
  | fin a, fin b => round (a + b)

/-- Sign-adjusted infinity: the product of `+inf` with a non-zero value of the
sign of `q`. -/
def infSigned (q : ℚ) : Dbl := if 0 < q then pinf else ninf

/-- Multiplication of doubles (`*`): `inf * 0` is NaN. -/
def mul : Dbl → Dbl → Dbl
  | nan, _ => nan
  | _, nan => nan
  | pinf, pinf => pinf
  | pinf, ninf => ninf
  | ninf, pinf => ninf
  | ninf, ninf => pinf
  | pinf, fin b => if b = 0 then nan else infSigned b
  | ninf, fin b => if b = 0 then nan else infSigned (-b)
  | fin a, pinf => if a = 0 then nan else infSigned a
  | fin a, ninf => if a = 0 then nan else infSigned (-a)
  | fin a, fin b => round (a * b)

/-- Division of doubles (`/`): `0 / 0` and `inf / inf` are NaN, a non-zero
finite value divided by zero is an infinity (of the sign of the dividend, the
zero being taken as `+0.0`). -/
def div : Dbl → Dbl → Dbl
  | nan, _ => nan
  | _, nan => nan
  | pinf, pinf => nan
  | pinf, ninf => nan
  | ninf, pinf => nan
  | ninf, ninf => nan
  | pinf, fin b => if 0 ≤ b then pinf else ninf
  | ninf, fin b => if 0 ≤ b then ninf else pinf
  | fin _, pinf => fin 0
  | fin _, ninf => fin 0
  | fin a, fin b => if b = 0 then (if a = 0 then nan else infSigned a) else round (a / b)

/-- Conversion `(double) n` of an `int`. -/
def ofInt (n : Int) : Dbl := round (n : ℚ)

/-- A finite double: a finite value that lies on the binary64 grid, so that
rounding leaves it unchanged. -/
def isFinite : Dbl → Bool
  | fin q => decide (round q = fin q)
  | _ => false

instance : Zero Dbl := ⟨fin 0⟩
instance : One Dbl := ⟨fin 1⟩
instance : Add Dbl := ⟨add⟩
instance : Mul Dbl := ⟨mul⟩
instance : Div Dbl := ⟨div⟩

end Dbl

/-! ## `int` arithmetic -/

/-- `INT_MAX` of a 32-bit `int`. -/
def INT_MAX : Int := 2147483647

/-- `INT_MIN` of a 32-bit `int`. -/
def INT_MIN : Int := -2147483648

/-- The result of an `int` operation whose mathematical value is `x`: `none`
when `x` is not representable (signed overflow). -/
def asInt (x : Int) : Option Int :=
  if INT_MIN ≤ x ∧ x ≤ INT_MAX then some x else none

/-- The index expression `a * b + c` evaluated in `int`. -/
def indexExpr (a b c : Int) : Option Int :=
  match asInt (a * b) with
  | none => none
  | some p => asInt (p + c)

/-! ## Buffers and loops -/

/-- The three buffers `multiplyMatrices` receives. -/
structure Mem (α : Type) where
  A : List α
  B : List α
  C : List α
  deriving DecidableEq

/-- Read `buf[idx]`; `none` when `idx` is outside the buffer. -/
def readCell {α : Type} (buf : List α) (idx : Int) : Option α :=
  if idx < 0 then none else buf[idx.toNat]?

/-- Write `buf[idx] = v`; `none` when `idx` is outside the buffer. -/
def writeCell {α : Type} (buf : List α) (idx : Int) (v : α) : Option (List α) :=
  if idx < 0 then none
  else if idx.toNat < buf.length then some (buf.set idx.toNat v)
  else none

/-- Read `buf[a * b + c]`, the index being computed in `int`. -/
def readAt {α : Type} (buf : List α) (a b c : Int) : Option α :=
  match indexExpr a b c with
  | none => none
  | some idx => readCell buf idx

/-- Write `buf[a * b + c] = v`, the index being computed in `int`. -/
def writeAt {α : Type} (buf : List α) (a b c : Int) (v : α) : Option (List α) :=
  match indexExpr a b c with
  | none => none
  | some idx => writeCell buf idx v

/-- The values `0, 1, ..., n-1` taken by the counter of
`for (int x = 0; x < n; x++)`; empty when `n <= 0`.  The counter never exceeds
the `int` bound `n`, so its increment does not overflow. -/
def loopRange (n : Int) : List Int :=
  (List.range n.toNat).map Int.ofNat

/-! ## `multiplyMatrices` -/

section Kernel

variable {α : Type} [Zero α] [Add α] [Mul α]

/-- The innermost loop, over the remaining values `ks` of `k`:
`sum += A[i * M + k] * B[k * P + j]`. -/
def sumLoop (s : Mem α) (M P i j : Int) : List Int → α → Option α
  | [], sum => some sum
  | k :: ks, sum =>
    match readAt s.A i M k, readAt s.B k P j with
    | some a, some b => sumLoop s M P i j ks (sum + a * b)
    | _, _ => none

/-- The loop over the remaining columns `js` of row `i`:
`sum = 0.0; (k loop); C[i * P + j] = sum`. -/
def colLoop (M P i : Int) : List Int → Mem α → Option (Mem α)
  | [], s => some s
  | j :: js, s =>
    match sumLoop s M P i j (loopRange M) 0 with
    | none => none
    | some sum =>
      match writeAt s.C i P j sum with
      | none => none
      | some C1 => colLoop M P i js { s with C := C1 }

/-- The outer loop over the rows `rows`, each row running the whole `j` loop. -/
def rowLoop (M P : Int) : List Int → Mem α → Option (Mem α)
  | [], s => some s
  | i :: rows, s =>
    match colLoop M P i (loopRange P) s with
    | none => none
    | some s1 => rowLoop M P rows s1

/-- `void multiplyMatrices(double *A, double *B, double *C, int N, int M, int P)`
with the row loop run in program order `i = 0, ..., N-1`. -/
def multiplyMatrices (A B C : List α) (N M P : Int) : Option (Mem α) :=
  rowLoop M P (loopRange N) ⟨A, B, C⟩

/-- The value the specification gives to cell `(i, j)`: the sum accumulated
from `0` in the order `k = 0, 1, ..., M-1` of `A[i*M + k] * B[k*P + j]`. -/
def dotSpec (A B : List α) (M P i j : Int) : α :=
  (loopRange M).foldl
    (fun acc k => acc + (readCell A (i * M + k)).getD 0 * (readCell B (k * P + j)).getD 0) 0

end Kernel

/-! ## The row loop under `#pragma omp parallel for` -/

section Parallel

variable {α : Type} [Zero α] [Add α] [Mul α]

/-- `multiplyMatrices` with the iterations of the row loop executed in the
order `sched` instead of program order. -/
def multiplyMatricesOn (sched : List Int) (A B C : List α) (M P : Int) : Option (Mem α) :=
  rowLoop M P sched ⟨A, B, C⟩

/-- The rows of worker `t`, in increasing order, when `owner` assigns every row
to one worker. -/
def workerRows (owner : Int → Nat) (N : Int) (t : Nat) : List Int :=
  (loopRange N).filter (fun i => owner i = t)

/-- An execution order of the row loop partitioned over `T` workers: it runs
rows of `0 .. N-1` only, and each worker `t < T` runs exactly its own rows in
increasing order; the rows of different workers interleave freely. -/
def IsParallelOrder (owner : Int → Nat) (N : Int) (T : Nat) (sched : List Int) : Prop :=
  (∀ i ∈ sched, i ∈ loopRange N) ∧
    ∀ t ∈ List.range T, sched.filter (fun i => owner i = t) = workerRows owner N t

instance (owner : Int → Nat) (N : Int) (T : Nat) (sched : List Int) :
    Decidable (IsParallelOrder owner N T sched) := by
  unfold IsParallelOrder; infer_instance

/-- Every row of `0 .. N-1` belongs to one of the `T` workers. -/
def OwnerValid (owner : Int → Nat) (N : Int) (T : Nat) : Prop :=
  ∀ i ∈ loopRange N, owner i < T

instance (owner : Int → Nat) (N : Int) (T : Nat) : Decidable (OwnerValid owner N T) := by
  unfold OwnerValid; infer_instance

/-- Round-robin partition: row `i` belongs to worker `i mod T`. -/
def roundRobinOwner (T : Nat) (i : Int) : Nat := (i % (T : Int)).toNat

/-- Contiguous partition into blocks of `ceil (N / T)` rows: row `i` belongs to
worker `i / ceil (N / T)`. -/
def blockOwner (N : Int) (T : Nat) (i : Int) : Nat := (i / ((N + T - 1) / T)).toNat

/-- The order in which the workers run one after the other: all rows of worker
`0`, then all rows of worker `1`, and so on. -/
def workersInTurn (owner : Int → Nat) (N : Int) (T : Nat) : List Int :=
  (List.range T).flatMap (workerRows owner N)

end Parallel

/-! ## `initializeMatrix` -/

/-- The value stored in a cell: `(double)rand() / RAND_MAX * 10.0`, for the
result `r` of the call to `rand()`. -/
def randomCell (RAND_MAX r : Int) : Dbl :=
  Dbl.ofInt r / Dbl.ofInt RAND_MAX * Dbl.fin 10

/-- The inner loop of `initializeMatrix` over the remaining columns `js` of row
`i`.  The state is the buffer and the number of calls made to `rand()` so far;
`rand n` is the result of call number `n`. -/
def initCols (RAND_MAX : Int) (rand : Nat → Int) (cols i : Int) :
    List Int → List Dbl × Nat → Option (List Dbl × Nat)
  | [], st => some st
  | j :: js, (matrix, n) =>
    match writeAt matrix i cols j (randomCell RAND_MAX (rand n)) with
    | none => none
    | some m1 => initCols RAND_MAX rand cols i js (m1, n + 1)

/-- The outer loop of `initializeMatrix` over the remaining rows. -/
def initRows (RAND_MAX : Int) (rand : Nat → Int) (cols : Int) :
    List Int → List Dbl × Nat → Option (List Dbl × Nat)
  | [], st => some st
  | i :: rows, st =>
    match initCols RAND_MAX rand cols i (loopRange cols) st with
    | none => none
    | some st1 => initRows RAND_MAX rand cols rows st1

/-- `void initializeMatrix(double *matrix, int rows, int cols)`, with the
library constant `RAND_MAX` and the generator (`rand`, number of calls made so
far) passed explicitly. -/
def initializeMatrix (RAND_MAX : Int) (rand : Nat → Int) (matrix : List Dbl) (calls : Nat)
    (rows cols : Int) : Option (List Dbl × Nat) :=
  initRows RAND_MAX rand cols (loopRange rows) (matrix, calls)

/-! ## The thread-count sweep of `main` -/

/-- `int thread_counts[] = {1, 2, 4, max_threads};` -/
def thread_counts (max_threads : Int) : List Int := [1, 2, 4, max_threads]

/-- The loop `for (t = 0; t < num_thread_configs; t++)` of `main` over the
remaining entries of `thread_counts`; `trace` records, in order, the worker
counts `multiplyMatrices` has been run with. -/
def sweepLoop (max_threads : Int) : List Int → List Int → List Int
  | [], trace => trace
  | num_threads :: rest, trace =>
    if num_threads > max_threads then sweepLoop max_threads rest trace
    else sweepLoop max_threads rest (trace ++ [num_threads])

/-- The worker counts one test case of `main` runs `multiplyMatrices` with. -/
def threadSweep (max_threads : Int) : List Int :=
  sweepLoop max_threads (thread_counts max_threads) []

/-! ## Predicates used in the statements -/

/-- An index that lies inside a buffer. -/
def InBuf {α : Type} (buf : List α) (idx : Int) : Prop := 0 ≤ idx ∧ idx < (buf.length : Int)

/-- An integer that is representable in `int`. -/
def IntOK (x : Int) : Prop := INT_MIN ≤ x ∧ x ≤ INT_MAX

/-- The access `buf[a * b + c]` is defined: the product and the sum are
representable in `int` and the index lies inside the buffer. -/
def Access {α : Type} (buf : List α) (a b c : Int) : Prop :=
  IntOK (a * b) ∧ IntOK (a * b + c) ∧ InBuf buf (a * b + c)

/-- Every access made while computing and storing cell `(i, j)` is defined. -/
def CellOK {α : Type} (s : Mem α) (M P i j : Int) : Prop :=
  (∀ k ∈ loopRange M, Access s.A i M k ∧ Access s.B k P j) ∧ Access s.C i P j

section Predicates

variable {α : Type} [Zero α] [Add α] [Mul α]

/-- The effect on memory of computing the cells `(i, j)` selected by `W`:
`A` and `B` are untouched, `C` keeps its size, every selected cell holds its
accumulated sum and every other cell of `C` keeps its value. -/
def Post (M P : Int) (W : Int → Int → Prop) (s s1 : Mem α) : Prop :=
  s1.A = s.A ∧ s1.B = s.B ∧ s1.C.length = s.C.length ∧
    (∀ i j, W i j → readCell s1.C (i * P + j) = some (dotSpec s.A s.B M P i j)) ∧
    (∀ idx, (∀ i j, W i j → i * P + j ≠ idx) → readCell s1.C idx = readCell s.C idx)

end Predicates

/-! ## Buffer access -/

section Buffers

variable {α : Type}

theorem readCell_isSome_iff (buf : List α) (idx : Int) :
    (∃ v, readCell buf idx = some v) ↔ InBuf buf idx := by
  unfold readCell InBuf
  by_cases h : idx < 0
  · simp [h]
  · simp only [h, if_false]
    constructor
    · rintro ⟨v, hv⟩
      have := (List.getElem?_eq_some.mp hv).1
      omega
    · rintro ⟨_, h2⟩
      have h3 : idx.toNat < buf.length := by omega
      exact ⟨buf[idx.toNat], List.getElem?_eq_getElem h3⟩

theorem readCell_eq_none_iff (buf : List α) (idx : Int) :
    readCell buf idx = none ↔ ¬ InBuf buf idx := by
  rw [← readCell_isSome_iff]
  cases readCell buf idx <;> simp

theorem writeCell_isSome_iff (buf : List α) (idx : Int) (v : α) :
    (∃ b, writeCell buf idx v = some b) ↔ InBuf buf idx := by
  unfold writeCell InBuf
  by_cases h : idx < 0
  · simp [h]
  · by_cases h2 : idx.toNat < buf.length
    · simp [h, h2]; omega
    · simp [h, h2]; omega

theorem writeCell_length {buf b : List α} {idx : Int} {v : α}
    (h : writeCell buf idx v = some b) : b.length = buf.length := by
  unfold writeCell at h
  split at h
  · cases h
  · split at h
    · cases h; simp
    · cases h

theorem readCell_writeCell_same {buf b : List α} {idx : Int} {v : α}
    (h : writeCell buf idx v = some b) : readCell b idx = some v := by
  unfold writeCell at h
  split at h
  · cases h
  · split at h
    · cases h
      rename_i h1 h2
      simp [readCell, h1, h2]
    · cases h

theorem readCell_writeCell_other {buf b : List α} {idx idx1 : Int} {v : α}
    (h : writeCell buf idx v = some b) (hne : idx ≠ idx1) :
    readCell b idx1 = readCell buf idx1 := by
  unfold writeCell at h
  split at h
  · cases h
  · split at h
    · cases h
      unfold readCell
      split
      · rfl
      · have : idx.toNat ≠ idx1.toNat := by omega
        simp [List.getElem?_set_ne this]
    · cases h

theorem buf_ext {b1 b2 : List α} (h : ∀ idx : Int, readCell b1 idx = readCell b2 idx) :
    b1 = b2 := by
  apply List.ext_getElem?
  intro n
  have := h (n : Int)
  simpa [readCell] using this

theorem mem_loopRange {n x : Int} : x ∈ loopRange n ↔ 0 ≤ x ∧ x < n := by
  unfold loopRange
  simp only [List.mem_map, List.mem_range]
  constructor
  · rintro ⟨a, ha, rfl⟩
    simp only [Int.ofNat_eq_coe]
    omega
  · rintro ⟨h0, h1⟩
    refine ⟨x.toNat, by omega, ?_⟩
    simp only [Int.ofNat_eq_coe]
    omega

theorem asInt_eq_some_iff (x y : Int) : asInt x = some y ↔ IntOK x ∧ y = x := by
  unfold asInt IntOK
  split
  · next h => simp [h, eq_comm]
  · next h => simp [h]

theorem indexExpr_eq_some_iff (a b c idx : Int) :
    indexExpr a b c = some idx ↔ IntOK (a * b) ∧ IntOK (a * b + c) ∧ idx = a * b + c := by
  unfold indexExpr
  cases h : asInt (a * b) with
  | none =>
    have : ¬ IntOK (a * b) := fun hok => by
      have := (asInt_eq_some_iff (a * b) (a * b)).mpr ⟨hok, rfl⟩
      rw [h] at this; cases this
    simp [this]
  | some p =>
    obtain ⟨hok, rfl⟩ := (asInt_eq_some_iff _ _).mp h
    simp [asInt_eq_some_iff, hok]

theorem readAt_eq_some_iff (buf : List α) (a b c : Int) (v : α) :
    readAt buf a b c = some v ↔ Access buf a b c ∧ readCell buf (a * b + c) = some v := by
  unfold readAt Access
  cases h : indexExpr a b c with
  | none =>
    have : ¬ (IntOK (a * b) ∧ IntOK (a * b + c)) := fun hok => by
      have := (indexExpr_eq_some_iff a b c (a * b + c)).mpr ⟨hok.1, hok.2, rfl⟩
      rw [h] at this; cases this
    constructor
    · intro h1; cases h1
    · rintro ⟨⟨h1, h2, _⟩, _⟩; exact absurd ⟨h1, h2⟩ this
  | some idx =>
    obtain ⟨h1, h2, rfl⟩ := (indexExpr_eq_some_iff _ _ _ _).mp h
    constructor
    · intro hr
      exact ⟨⟨h1, h2, (readCell_isSome_iff _ _).mp ⟨v, hr⟩⟩, hr⟩
    · rintro ⟨_, hr⟩; exact hr

theorem readAt_isSome_iff (buf : List α) (a b c : Int) :
    (∃ v, readAt buf a b c = some v) ↔ Access buf a b c := by
  constructor
  · rintro ⟨v, hv⟩; exact ((readAt_eq_some_iff _ _ _ _ _).mp hv).1
  · intro h
    obtain ⟨v, hv⟩ := (readCell_isSome_iff buf (a * b + c)).mpr h.2.2
    exact ⟨v, (readAt_eq_some_iff _ _ _ _ _).mpr ⟨h, hv⟩⟩

theorem readAt_eq_none_iff (buf : List α) (a b c : Int) :
    readAt buf a b c = none ↔ ¬ Access buf a b c := by
  rw [← readAt_isSome_iff]
  cases readAt buf a b c <;> simp

theorem writeAt_eq_some_iff (buf : List α) (a b c : Int) (v : α) (buf1 : List α) :
    writeAt buf a b c v = some buf1 ↔
      Access buf a b c ∧ writeCell buf (a * b + c) v = some buf1 := by
  unfold writeAt Access
  cases h : indexExpr a b c with
  | none =>
    have : ¬ (IntOK (a * b) ∧ IntOK (a * b + c)) := fun hok => by
      have := (indexExpr_eq_some_iff a b c (a * b + c)).mpr ⟨hok.1, hok.2, rfl⟩
      rw [h] at this; cases this
    constructor
    · intro h1; cases h1
    · rintro ⟨⟨h1, h2, _⟩, _⟩; exact absurd ⟨h1, h2⟩ this
  | some idx =>
    obtain ⟨h1, h2, rfl⟩ := (indexExpr_eq_some_iff _ _ _ _).mp h
    constructor
    · intro hw
      exact ⟨⟨h1, h2, (writeCell_isSome_iff _ _ _).mp ⟨buf1, hw⟩⟩, hw⟩
    · rintro ⟨_, hw⟩; exact hw

theorem writeAt_isSome_iff (buf : List α) (a b c : Int) (v : α) :
    (∃ buf1, writeAt buf a b c v = some buf1) ↔ Access buf a b c := by
  constructor
  · rintro ⟨b1, hb⟩; exact ((writeAt_eq_some_iff _ _ _ _ _ _).mp hb).1
  · intro h
    obtain ⟨b1, hb⟩ := (writeCell_isSome_iff buf (a * b + c) v).mpr h.2.2
    exact ⟨b1, (writeAt_eq_some_iff _ _ _ _ _ _).mpr ⟨h, hb⟩⟩

theorem cellOK_congr {M P i j : Int} (s s1 : Mem α) (hA : s1.A = s.A) (hB : s1.B = s.B)
    (hC : s1.C.length = s.C.length) : CellOK s1 M P i j ↔ CellOK s M P i j := by
  unfold CellOK Access InBuf; rw [hA, hB, hC]

/-- Row-major indexing is injective: a flat index determines its row and
column. -/
theorem cell_index_inj {P i j i1 j1 : Int} (hj : 0 ≤ j ∧ j < P) (hj1 : 0 ≤ j1 ∧ j1 < P)
    (h : i * P + j = i1 * P + j1) : i = i1 ∧ j = j1 := by
  have hi : i = i1 := by
    rcases lt_trichotomy i i1 with hlt | heq | hgt
    · exfalso
      have : (i1 - i) * P ≥ 1 * P := by
        apply mul_le_mul_of_nonneg_right (by omega) (by omega)
      nlinarith
    · exact heq
    · exfalso
      have : (i - i1) * P ≥ 1 * P := by
        apply mul_le_mul_of_nonneg_right (by omega) (by omega)
      nlinarith
  subst hi
  exact ⟨rfl, by omega⟩

end Buffers

/-! ## The loops of `multiplyMatrices` -/

section KernelLemmas

variable {α : Type} [Zero α] [Add α] [Mul α]

/-- The innermost loop succeeds exactly when all its accesses are defined, and
then returns the accumulated sum. -/
theorem sumLoop_eq_some_iff (s : Mem α) (M P i j : Int) (ks : List Int) (acc v : α) :
    sumLoop s M P i j ks acc = some v ↔
      (∀ k ∈ ks, Access s.A i M k ∧ Access s.B k P j) ∧
        v = ks.foldl (fun acc k =>
          acc + (readCell s.A (i * M + k)).getD 0 * (readCell s.B (k * P + j)).getD 0) acc := by
  induction ks generalizing acc with
  | nil => simp [sumLoop, eq_comm]
  | cons k ks ih =>
    simp only [sumLoop, List.mem_cons, forall_eq_or_imp, List.foldl_cons]
    cases ha : readAt s.A i M k with
    | none =>
      have := (readAt_eq_none_iff _ _ _ _).mp ha
      simp [this]
    | some a =>
      obtain ⟨hA, hra⟩ := (readAt_eq_some_iff _ _ _ _ _).mp ha
      cases hb : readAt s.B k P j with
      | none =>
        have := (readAt_eq_none_iff _ _ _ _).mp hb
        simp [this]
      | some b =>
        obtain ⟨hB, hrb⟩ := (readAt_eq_some_iff _ _ _ _ _).mp hb
        simp only [ih, hA, hB, and_self, true_and, hra, hrb, Option.getD_some]

theorem sumLoop_dot (s : Mem α) (M P i j : Int) (v : α) :
    sumLoop s M P i j (loopRange M) 0 = some v ↔
      (∀ k ∈ loopRange M, Access s.A i M k ∧ Access s.B k P j) ∧
        v = dotSpec s.A s.B M P i j := by
  rw [sumLoop_eq_some_iff]; rfl

theorem post_unique {M P : Int} {W : Int → Int → Prop} {s s1 s2 : Mem α}
    (h1 : Post M P W s s1) (h2 : Post M P W s s2) : s1 = s2 := by
  obtain ⟨a1, b1, _, w1, f1⟩ := h1
  obtain ⟨a2, b2, _, w2, f2⟩ := h2
  have hC : s1.C = s2.C := by
    apply buf_ext
    intro idx
    by_cases h : ∃ i j, W i j ∧ i * P + j = idx
    · obtain ⟨i, j, hw, rfl⟩ := h
      rw [w1 i j hw, w2 i j hw]
    · have h' : ∀ i j, W i j → i * P + j ≠ idx := fun i j hw he => h ⟨i, j, hw, he⟩
      rw [f1 idx h', f2 idx h']
  cases s1; cases s2; simp_all

theorem post_congr {M P : Int} {W W1 : Int → Int → Prop} {s s1 : Mem α}
    (hW : ∀ i j, W i j ↔ W1 i j) (h : Post M P W s s1) : Post M P W1 s s1 := by
  have : W = W1 := by funext i j; exact propext (hW i j)
  rw [← this]; exact h

theorem post_refl (M P : Int) (s : Mem α) : Post M P (fun _ _ => False) s s :=
  ⟨rfl, rfl, rfl, fun _ _ h => h.elim, fun _ _ => rfl⟩

/-- Sequential composition of two effects whose cells do not collide. -/
theorem post_trans {M P : Int} {W1 W2 : Int → Int → Prop} {s s1 s2 : Mem α}
    (hinj : ∀ i j i1 j1, W1 i j → W2 i1 j1 → i * P + j = i1 * P + j1 → i = i1 ∧ j = j1)
    (h1 : Post M P W1 s s1) (h2 : Post M P W2 s1 s2) :
    Post M P (fun i j => W1 i j ∨ W2 i j) s s2 := by
  obtain ⟨a1, b1, l1, w1, f1⟩ := h1
  obtain ⟨a2, b2, l2, w2, f2⟩ := h2
  refine ⟨a2.trans a1, b2.trans b1, l2.trans l1, ?_, ?_⟩
  · intro i j hw
    by_cases hw2 : W2 i j
    · rw [w2 i j hw2, a1, b1]
    · have hw1 : W1 i j := hw.resolve_right hw2
      rw [f2 (i * P + j), w1 i j hw1]
      intro i1 j1 h21 he
      obtain ⟨rfl, rfl⟩ := hinj i j i1 j1 hw1 h21 he.symm
      exact hw2 h21
  · intro idx h
    rw [f2 idx (fun i j hw => h i j (Or.inr hw)), f1 idx (fun i j hw => h i j (Or.inl hw))]

end KernelLemmas

section KernelLemmas2

variable {α : Type} [Zero α] [Add α] [Mul α]

theorem post_write {M P i j : Int} {s : Mem α} {C1 : List α}
    (h : writeCell s.C (i * P + j) (dotSpec s.A s.B M P i j) = some C1) :
    Post M P (fun i1 j1 => i1 = i ∧ j1 = j) s { s with C := C1 } := by
  refine ⟨rfl, rfl, writeCell_length h, ?_, ?_⟩
  · rintro i1 j1 ⟨rfl, rfl⟩
    exact readCell_writeCell_same h
  · intro idx hne
    exact readCell_writeCell_other h (hne i j ⟨rfl, rfl⟩)

theorem colLoop_post {M P i : Int} (js : List Int) {s s1 : Mem α}
    (h : colLoop M P i js s = some s1) :
    (∀ j ∈ js, CellOK s M P i j) ∧ Post M P (fun i1 j => i1 = i ∧ j ∈ js) s s1 := by
  induction js generalizing s with
  | nil =>
    simp only [colLoop, Option.some.injEq] at h
    subst h
    exact ⟨by simp, post_congr (by simp) (post_refl M P s)⟩
  | cons j js ih =>
    simp only [colLoop] at h
    cases hs : sumLoop s M P i j (loopRange M) 0 with
    | none => simp [hs] at h
    | some v =>
      obtain ⟨hreads, rfl⟩ := (sumLoop_dot s M P i j v).mp hs
      cases hw0 : writeAt s.C i P j (dotSpec s.A s.B M P i j) with
      | none => simp [hs, hw0] at h
      | some C1 =>
        simp only [hs, hw0] at h
        obtain ⟨hC, hw⟩ := (writeAt_eq_some_iff _ _ _ _ _ _).mp hw0
        obtain ⟨hok, hpost⟩ := ih h
        have hstep := post_write hw
        refine ⟨?_, ?_⟩
        · intro j1 hj1
          rcases List.mem_cons.mp hj1 with rfl | hj1
          · exact ⟨hreads, hC⟩
          · exact (cellOK_congr s { s with C := C1 } rfl rfl (writeCell_length hw)).mp (hok j1 hj1)
        · refine post_congr ?_ (post_trans ?_ hstep hpost)
          · intro i1 j1
            simp only [List.mem_cons]
            tauto
          · rintro i0 j0 i1 j1 ⟨rfl, rfl⟩ ⟨rfl, _⟩ he
            exact ⟨rfl, by omega⟩

theorem colLoop_exists {M P i : Int} (js : List Int) {s : Mem α}
    (h : ∀ j ∈ js, CellOK s M P i j) : ∃ s1, colLoop M P i js s = some s1 := by
  induction js generalizing s with
  | nil => exact ⟨s, rfl⟩
  | cons j js ih =>
    obtain ⟨hreads, hC⟩ := h j (List.mem_cons_self _ _)
    have hs := (sumLoop_dot s M P i j _).mpr ⟨hreads, rfl⟩
    obtain ⟨C1, hw0⟩ := (writeAt_isSome_iff s.C i P j (dotSpec s.A s.B M P i j)).mpr hC
    have hw := ((writeAt_eq_some_iff _ _ _ _ _ _).mp hw0).2
    simp only [colLoop, hs, hw0]
    apply ih
    intro j1 hj1
    exact (cellOK_congr s { s with C := C1 } rfl rfl (writeCell_length hw)).mpr (h j1 (List.mem_cons_of_mem _ hj1))

theorem rowLoop_post {M P : Int} (rows : List Int) {s s2 : Mem α}
    (h : rowLoop M P rows s = some s2) :
    (∀ i ∈ rows, ∀ j ∈ loopRange P, CellOK s M P i j) ∧
      Post M P (fun i j => i ∈ rows ∧ j ∈ loopRange P) s s2 := by
  induction rows generalizing s with
  | nil =>
    simp only [rowLoop, Option.some.injEq] at h
    subst h
    exact ⟨by simp, post_congr (by simp) (post_refl M P s)⟩
  | cons i rows ih =>
    simp only [rowLoop] at h
    cases hc : colLoop M P i (loopRange P) s with
    | none => simp [hc] at h
    | some s1 =>
      simp only [hc] at h
      obtain ⟨hok1, hpost1⟩ := colLoop_post _ hc
      obtain ⟨hok2, hpost2⟩ := ih h
      refine ⟨?_, ?_⟩
      · intro i1 hi1 j hj
        rcases List.mem_cons.mp hi1 with rfl | hi1
        · exact hok1 j hj
        · exact (cellOK_congr _ _ hpost1.1 hpost1.2.1 hpost1.2.2.1).mp (hok2 i1 hi1 j hj)
      · refine post_congr ?_ (post_trans ?_ hpost1 hpost2)
        · intro i1 j1
          simp only [List.mem_cons]
          tauto
        · rintro i0 j0 i1 j1 ⟨rfl, hj0⟩ ⟨_, hj1⟩ he
          exact cell_index_inj (mem_loopRange.mp hj0) (mem_loopRange.mp hj1) he

theorem rowLoop_exists {M P : Int} (rows : List Int) {s : Mem α}
    (h : ∀ i ∈ rows, ∀ j ∈ loopRange P, CellOK s M P i j) :
    ∃ s2, rowLoop M P rows s = some s2 := by
  induction rows generalizing s with
  | nil => exact ⟨s, rfl⟩
  | cons i rows ih =>
    obtain ⟨s1, hc⟩ := colLoop_exists (loopRange P) (h i (List.mem_cons_self _ _))
    obtain ⟨_, hpost1⟩ := colLoop_post _ hc
    simp only [rowLoop, hc]
    apply ih
    intro i1 hi1 j hj
    exact (cellOK_congr _ _ hpost1.1 hpost1.2.1 hpost1.2.2.1).mpr
      (h i1 (List.mem_cons_of_mem _ hi1) j hj)

/-- The row loop over `rows` succeeds exactly when every access of every cell
of those rows is in bounds, and its result is then determined by `Post`. -/
theorem rowLoop_eq_some_iff {M P : Int} (rows : List Int) (s s2 : Mem α) :
    rowLoop M P rows s = some s2 ↔
      (∀ i ∈ rows, ∀ j ∈ loopRange P, CellOK s M P i j) ∧
        Post M P (fun i j => i ∈ rows ∧ j ∈ loopRange P) s s2 := by
  constructor
  · exact rowLoop_post rows
  · rintro ⟨hok, hpost⟩
    obtain ⟨s3, h3⟩ := rowLoop_exists rows hok
    rw [h3, post_unique hpost (rowLoop_post rows h3).2]

/-- The result of the row loop depends only on the set of rows it runs, not on
their order or multiplicity. -/
theorem rowLoop_congr_mem {M P : Int} {rows1 rows2 : List Int} (s : Mem α)
    (h : ∀ i, i ∈ rows1 ↔ i ∈ rows2) : rowLoop M P rows1 s = rowLoop M P rows2 s := by
  apply Option.ext
  intro s2
  rw [Option.mem_def, Option.mem_def, rowLoop_eq_some_iff, rowLoop_eq_some_iff]
  have hW : (fun i j => i ∈ rows1 ∧ j ∈ loopRange P) = (fun i j => i ∈ rows2 ∧ j ∈ loopRange P) := by
    funext i j; rw [h i]
  rw [hW]
  constructor
  · rintro ⟨hok, hp⟩; exact ⟨fun i hi => hok i ((h i).mpr hi), hp⟩
  · rintro ⟨hok, hp⟩; exact ⟨fun i hi => hok i ((h i).mp hi), hp⟩

end KernelLemmas2

section KernelFacts

/-- A row-major index of an `N × M` matrix lies below `N * M`. -/
theorem flat_index_bounds {N M i k : Int} (hi0 : 0 ≤ i) (hi : i < N) (hk0 : 0 ≤ k) (hk : k < M) :
    0 ≤ i * M + k ∧ i * M + k < N * M := by
  constructor
  · have : 0 ≤ i * M := mul_nonneg hi0 (by omega)
    omega
  · have : (i + 1) * M ≤ N * M := mul_le_mul_of_nonneg_right (by omega) (by omega)
    nlinarith

/-- Under the size precondition every access of every cell is defined: the
indices are inside the buffers and their computation stays within `int`. -/
theorem cellOK_of_sizes {α : Type} {A B C : List α} {N M P : Int}
    (hA : N * M ≤ (A.length : Int)) (hB : M * P ≤ (B.length : Int))
    (hC : N * P ≤ (C.length : Int))
    (hNM : N * M ≤ INT_MAX + 1) (hMP : M * P ≤ INT_MAX + 1) (hNP : N * P ≤ INT_MAX + 1) :
    ∀ i ∈ loopRange N, ∀ j ∈ loopRange P, CellOK (⟨A, B, C⟩ : Mem α) M P i j := by
  intro i hi j hj
  obtain ⟨hi0, hi1⟩ := mem_loopRange.mp hi
  obtain ⟨hj0, hj1⟩ := mem_loopRange.mp hj
  have key : ∀ {L a c X Y : Int}, 0 ≤ a → a < X → 0 ≤ c → c < Y → X * Y ≤ L →
      X * Y ≤ INT_MAX + 1 → IntOK (a * Y) ∧ IntOK (a * Y + c) ∧ (0 ≤ a * Y + c ∧ a * Y + c < L) := by
    intro L a c X Y ha0 ha1 hc0 hc1 hL hmax
    have h1 := flat_index_bounds ha0 ha1 hc0 hc1
    have h2 : 0 ≤ a * Y := mul_nonneg ha0 (by omega)
    unfold IntOK INT_MIN
    unfold INT_MAX at hmax ⊢
    omega
  refine ⟨?_, ?_⟩
  · intro k hk
    obtain ⟨hk0, hk1⟩ := mem_loopRange.mp hk
    exact ⟨key hi0 hi1 hk0 hk1 hA hNM, key hk0 hk1 hj0 hj1 hB hMP⟩
  · exact key hi0 hi1 hj0 hj1 hC hNP

/-- A store index that does not fit `int` makes the row loop undefined. -/
theorem rowLoop_none_of_overflow {α : Type} [Zero α] [Add α] [Mul α] {M P : Int}
    {rows : List Int} (s : Mem α) {i j : Int} (hi : i ∈ rows) (hj : j ∈ loopRange P)
    (hover : INT_MAX < i * P + j) : rowLoop M P rows s = none := by
  cases h : rowLoop M P rows s with
  | none => rfl
  | some s2 =>
    have hok := ((rowLoop_post rows h).1 i hi j hj).2.2.1
    exact absurd hok.2 (not_le.mpr hover)

/-- Every flat index below `N * P` is the index of a cell `(i, j)`. -/
theorem flat_index_split {N P idx : Int} (hP : 0 < P) (h0 : 0 ≤ idx) (h1 : idx < N * P) :
    0 ≤ idx / P ∧ idx / P < N ∧ 0 ≤ idx % P ∧ idx % P < P ∧ idx / P * P + idx % P = idx := by
  refine ⟨Int.ediv_nonneg h0 hP.le, ?_, Int.emod_nonneg _ hP.ne', Int.emod_lt_of_pos _ hP, ?_⟩
  · exact Int.ediv_lt_of_lt_mul hP h1
  · rw [mul_comm]; exact Int.ediv_add_emod idx P

theorem mem_of_parallelOrder {owner : Int → Nat} {N : Int} {T : Nat} {sched : List Int}
    (ho : OwnerValid owner N T) (hs : IsParallelOrder owner N T sched) (i : Int) :
    i ∈ sched ↔ i ∈ loopRange N := by
  constructor
  · exact hs.1 i
  · intro hi
    have hmem : i ∈ workerRows owner N (owner i) := by
      unfold workerRows
      simp [List.mem_filter, hi]
    rw [← hs.2 (owner i) (List.mem_range.mpr (ho i hi))] at hmem
    exact (List.mem_filter.mp hmem).1

end KernelFacts

/-! ## Rounding and `double` arithmetic -/

section DblLemmas

open Dbl

theorem rne_bounds (x : ℚ) : ⌊x⌋ ≤ rne x ∧ rne x ≤ ⌊x⌋ + 1 := by
  unfold rne
  split_ifs <;> omega

theorem rne_intCast (m : Int) : rne (m : ℚ) = m := by
  unfold rne
  simp

/-- Rounding to the nearest integer does not cross an integer from above. -/
theorem rne_ge {x : ℚ} {m : Int} (h : (m : ℚ) ≤ x) : m ≤ rne x :=
  le_trans (Int.le_floor.mpr h) (rne_bounds x).1

/-- Rounding to the nearest integer does not cross an integer from below. -/
theorem rne_le {x : ℚ} {m : Int} (h : x ≤ (m : ℚ)) : rne x ≤ m := by
  rcases lt_or_eq_of_le h with hlt | heq
  · have : ⌊x⌋ < m := Int.floor_lt.mpr hlt
    have := (rne_bounds x).2
    omega
  · rw [heq, rne_intCast]

theorem log2Fuel_eq : ∀ fuel n, n ≤ fuel → log2Fuel fuel n = Nat.log 2 n := by
  intro fuel
  induction fuel with
  | zero =>
    intro n hn
    have : n = 0 := by omega
    subst this
    simp [log2Fuel]
  | succ fuel ih =>
    intro n hn
    unfold log2Fuel
    split
    · next h => rw [Nat.log_of_lt h]
    · next h =>
      rw [ih (n / 2) (by omega)]
      exact (Nat.log_of_one_lt_of_le (by norm_num) (by omega)).symm

theorem flog2_eq (n : Nat) : flog2 n = Nat.log 2 n := log2Fuel_eq n n le_rfl

theorem clog2_eq (n : Nat) : clog2 n = Nat.clog 2 n := by
  unfold clog2
  split
  · next h => rw [Nat.clog_of_right_le_one h]
  · next h =>
    have hn : n - 1 ≠ 0 := by omega
    rw [flog2_eq, ← Nat.log2_eq_log_two]
    apply le_antisymm
    · have h1 : n ≤ 2 ^ Nat.clog 2 n := Nat.le_pow_clog (by norm_num) n
      have h2 : (n - 1).log2 < Nat.clog 2 n := (Nat.log2_lt hn).mpr (by omega)
      omega
    · apply (Nat.le_pow_iff_clog_le (by norm_num)).mp
      have := (Nat.log2_lt (k := (n - 1).log2 + 1) hn).mp (by omega)
      omega

/-- The binary exponent is the integer logarithm in base `2`. -/
theorem ilog2_eq (q : ℚ) : ilog2 q = Int.log 2 q := by
  unfold ilog2 Int.log
  rw [flog2_eq, clog2_eq]

/-- The binary exponent brackets a positive rational:
`2 ^ e <= q < 2 ^ (e + 1)`. -/
theorem ilog2_spec {q : ℚ} (hq : 0 < q) :
    (2 : ℚ) ^ ilog2 q ≤ q ∧ q < (2 : ℚ) ^ (ilog2 q + 1) := by
  rw [ilog2_eq]
  exact ⟨by exact_mod_cast Int.zpow_log_le_self (b := 2) (by norm_num) hq,
    by exact_mod_cast Int.lt_zpow_succ_log_self (b := 2) (by norm_num) q⟩

theorem ulpExp_nonpos {q : ℚ} (h : |q| < (2 : ℚ) ^ (53 : ℕ)) : ulpExp q ≤ 0 := by
  unfold ulpExp
  rw [ilog2_eq]
  have hlog : Int.log 2 |q| ≤ 52 := by
    rcases eq_or_lt_of_le (abs_nonneg q) with h0 | hpos
    · rw [← h0, Int.log_of_right_le_zero _ le_rfl]; norm_num
    · have : Int.log 2 |q| < 53 := by
        apply (Int.lt_zpow_iff_log_lt (by norm_num) hpos).mp
        exact_mod_cast h
      omega
  omega

/-- An integer is a multiple of every unit in the last place `2 ^ u`, `u <= 0`. -/
theorem int_on_grid (n u : Int) (hu : u ≤ 0) :
    ((n * 2 ^ (-u).toNat : Int) : ℚ) * (2 : ℚ) ^ u = (n : ℚ) := by
  have h2 : (2 : ℚ) ^ u = ((2 : ℚ) ^ (-u).toNat)⁻¹ := by
    rw [← zpow_natCast, ← zpow_neg]
    congr 1
    omega
  rw [h2]
  push_cast
  field_simp

theorem div_ulp (q : ℚ) (u : Int) (hu : u ≤ 0) :
    q / (2 : ℚ) ^ u = q * (2 : ℚ) ^ (-u).toNat := by
  have h2 : (2 : ℚ) ^ u = ((2 : ℚ) ^ (-u).toNat)⁻¹ := by
    rw [← zpow_natCast, ← zpow_neg]
    congr 1
    omega
  rw [h2, div_inv_eq_mul]

/-- Rounding does not cross an integer from below (below `2 ^ 53`). -/
theorem roundQ_le_int {q : ℚ} {n : Int} (hu : ulpExp q ≤ 0) (h : q ≤ (n : ℚ)) :
    roundQ q ≤ (n : ℚ) := by
  unfold roundQ
  have hpos : (0 : ℚ) < (2 : ℚ) ^ ulpExp q := zpow_pos (by norm_num) _
  have hpos1 : (0 : ℚ) < (2 : ℚ) ^ (-ulpExp q).toNat := pow_pos (by norm_num) _
  have h1 : rne (q / (2 : ℚ) ^ ulpExp q) ≤ n * 2 ^ (-ulpExp q).toNat := by
    apply rne_le
    rw [div_ulp q _ hu]
    push_cast
    exact mul_le_mul_of_nonneg_right h hpos1.le
  calc (rne (q / (2 : ℚ) ^ ulpExp q) : ℚ) * (2 : ℚ) ^ ulpExp q
      ≤ ((n * 2 ^ (-ulpExp q).toNat : Int) : ℚ) * (2 : ℚ) ^ ulpExp q := by
        apply mul_le_mul_of_nonneg_right _ hpos.le
        exact_mod_cast h1
    _ = (n : ℚ) := int_on_grid n _ hu

/-- Rounding does not cross an integer from above (below `2 ^ 53`). -/
theorem roundQ_ge_int {q : ℚ} {n : Int} (hu : ulpExp q ≤ 0) (h : (n : ℚ) ≤ q) :
    (n : ℚ) ≤ roundQ q := by
  unfold roundQ
  have hpos : (0 : ℚ) < (2 : ℚ) ^ ulpExp q := zpow_pos (by norm_num) _
  have hpos1 : (0 : ℚ) < (2 : ℚ) ^ (-ulpExp q).toNat := pow_pos (by norm_num) _
  have h1 : n * 2 ^ (-ulpExp q).toNat ≤ rne (q / (2 : ℚ) ^ ulpExp q) := by
    apply rne_ge
    rw [div_ulp q _ hu]
    push_cast
    exact mul_le_mul_of_nonneg_right h hpos1.le
  calc (n : ℚ) = ((n * 2 ^ (-ulpExp q).toNat : Int) : ℚ) * (2 : ℚ) ^ ulpExp q :=
        (int_on_grid n _ hu).symm
    _ ≤ (rne (q / (2 : ℚ) ^ ulpExp q) : ℚ) * (2 : ℚ) ^ ulpExp q := by
        apply mul_le_mul_of_nonneg_right _ hpos.le
        exact_mod_cast h1

theorem two_pow_53_lt : ((2 : ℚ) ^ (53 : ℕ)) < (2 : ℚ) ^ (1024 : ℕ) := by
  norm_num

/-- The double nearest to a rational between two integers below `2 ^ 53` is
finite and lies between them. -/
theorem Dbl.round_between {q : ℚ} {lo hi : Int} (h0 : (lo : ℚ) ≤ q) (h1 : q ≤ (hi : ℚ))
    (hlo : -(2 : ℚ) ^ (53 : ℕ) < (lo : ℚ)) (hhi : (hi : ℚ) < (2 : ℚ) ^ (53 : ℕ)) :
    Dbl.round q = fin (roundQ q) ∧ (lo : ℚ) ≤ roundQ q ∧ roundQ q ≤ (hi : ℚ) := by
  have habs : |q| < (2 : ℚ) ^ (53 : ℕ) := abs_lt.mpr ⟨by linarith, by linarith⟩
  have hu := ulpExp_nonpos habs
  have hle := roundQ_le_int hu h1
  have hge := roundQ_ge_int hu h0
  have hbig := two_pow_53_lt
  refine ⟨?_, hge, hle⟩
  unfold Dbl.round
  rw [if_neg (by linarith), if_neg (by linarith)]

/-- Integers below `2 ^ 53` in magnitude are doubles: conversion is exact. -/
theorem Dbl.round_intCast (n : Int) (hlo : -(2 : ℚ) ^ (53 : ℕ) < (n : ℚ))
    (hhi : (n : ℚ) < (2 : ℚ) ^ (53 : ℕ)) : Dbl.round (n : ℚ) = fin (n : ℚ) := by
  obtain ⟨h, h1, h2⟩ := @Dbl.round_between (n : ℚ) n n le_rfl le_rfl hlo hhi
  rw [h, le_antisymm h2 h1]

theorem Dbl.round_zero : Dbl.round 0 = fin 0 := by
  have := Dbl.round_intCast 0 (by norm_num) (by norm_num)
  simpa using this

/-- Rounding at a few reference points: `0.1` is not a double and rounds to
`3602879701896397 / 2^55`; the midpoint `2^-1075` of the two smallest
non-negative doubles rounds to the even one, `0`; the midpoint
`2^1024 - 2^970` above the largest finite double rounds to infinity. -/
theorem Dbl.round_examples :
    Dbl.round (1 / 10) = fin (3602879701896397 / 36028797018963968) ∧
      Dbl.round (1 / 2 ^ 1075) = fin 0 ∧
      Dbl.round (2 ^ 1024 - 2 ^ 970) = pinf ∧
      Dbl.round (2 ^ 1024 - 2 ^ 971) = fin (2 ^ 1024 - 2 ^ 971) := by
  decide!

theorem Dbl.isFinite_iff (x : Dbl) :
    x.isFinite = true ↔ ∃ q, x = fin q ∧ Dbl.round q = fin q := by
  cases x <;> simp [Dbl.isFinite]

theorem Dbl.zero_def : (0 : Dbl) = fin 0 := rfl

theorem Dbl.one_def : (1 : Dbl) = fin 1 := rfl

theorem Dbl.fin_mul_one {a : ℚ} (h : Dbl.round a = fin a) : fin a * fin 1 = fin a := by
  show Dbl.round (a * 1) = fin a
  rw [mul_one, h]

theorem Dbl.fin_mul_zero (a : ℚ) : fin a * fin 0 = fin 0 := by
  show Dbl.round (a * 0) = fin 0
  rw [mul_zero, Dbl.round_zero]

theorem Dbl.zero_mul_fin (b : ℚ) : fin 0 * fin b = fin 0 := by
  show Dbl.round (0 * b) = fin 0
  rw [zero_mul, Dbl.round_zero]

theorem Dbl.zero_add_fin {a : ℚ} (h : Dbl.round a = fin a) : fin 0 + fin a = fin a := by
  show Dbl.round (0 + a) = fin a
  rw [zero_add, h]

theorem Dbl.fin_add_zero {a : ℚ} (h : Dbl.round a = fin a) : fin a + fin 0 = fin a := by
  show Dbl.round (a + 0) = fin a
  rw [add_zero, h]

theorem Dbl.zero_add_zero : (fin 0 : Dbl) + fin 0 = fin 0 :=
  Dbl.zero_add_fin Dbl.round_zero

/-- A sum of terms that are all `0` is `0`. -/
theorem foldl_zero_terms (term : Int → Dbl) (ks : List Int) (h : ∀ k ∈ ks, term k = fin 0) :
    ks.foldl (fun acc k => acc + term k) (fin 0) = fin 0 := by
  induction ks with
  | nil => rfl
  | cons k ks ih =>
    simp only [List.foldl_cons, h k (List.mem_cons_self _ _), Dbl.zero_add_zero]
    exact ih (fun k1 hk1 => h k1 (List.mem_cons_of_mem _ hk1))

/-- A sum over `k = 0, ..., n-1` in which the term `k = j` is the double `fin q`
and every other term is `0`. -/
theorem foldl_single_term (term : Int → Dbl) (j : Int) (q : ℚ) (n : Nat)
    (hq : Dbl.round q = fin q)
    (hj : term j = fin q) (h : ∀ k : Int, 0 ≤ k → k < n → k ≠ j → term k = fin 0) :
    ((List.range n).map Int.ofNat).foldl (fun acc k => acc + term k) (fin 0) =
      if 0 ≤ j ∧ j < n then fin q else fin 0 := by
  induction n with
  | zero =>
    have : ¬ (0 ≤ j ∧ j < ((0 : Nat) : Int)) := by omega
    rw [if_neg this]; rfl
  | succ n ih =>
    have ih1 := ih (fun k hk0 hk1 hne => h k hk0 (by push_cast; omega) hne)
    rw [List.range_succ, List.map_append, List.foldl_append, ih1]
    simp only [List.map_cons, List.map_nil, List.foldl_cons, List.foldl_nil, Int.ofNat_eq_coe]
    by_cases hjn : j = (n : Int)
    · have h1 : ¬ (0 ≤ j ∧ j < (n : Int)) := by omega
      have h2 : 0 ≤ j ∧ j < ((n + 1 : Nat) : Int) := by push_cast; omega
      rw [if_neg h1, if_pos h2, ← hjn, hj, Dbl.zero_add_fin hq]
    · have hterm := h (n : Int) (by omega) (by push_cast; omega) (fun e => hjn e.symm)
      rw [hterm]
      by_cases h1 : 0 ≤ j ∧ j < (n : Int)
      · have h2 : 0 ≤ j ∧ j < ((n + 1 : Nat) : Int) := by push_cast; omega
        rw [if_pos h1, if_pos h2, Dbl.fin_add_zero hq]
      · have h2 : ¬ (0 ≤ j ∧ j < ((n + 1 : Nat) : Int)) := by push_cast; omega
        rw [if_neg h1, if_neg h2, Dbl.zero_add_zero]

theorem readCell_mem {α : Type} {buf : List α} {idx : Int} {v : α}
    (h : readCell buf idx = some v) : v ∈ buf := by
  unfold readCell at h
  split at h
  · cases h
  · exact List.getElem?_mem h

/-- With an identity right factor, the accumulated sum of cell `(i, j)` is the
cell `(i, j)` of a left factor whose row `i` holds finite doubles. -/
theorem dotSpec_identity (A B : List Dbl) (M i j : Int) (hj0 : 0 ≤ j) (hj1 : j < M)
    (hrow : ∀ k, 0 ≤ k → k < M →
      ∃ q, readCell A (i * M + k) = some (fin q) ∧ Dbl.round q = fin q)
    (hI : ∀ k, 0 ≤ k → k < M → readCell B (k * M + j) = some (if k = j then 1 else 0)) :
    some (dotSpec A B M M i j) = readCell A (i * M + j) := by
  obtain ⟨q, hq, hqr⟩ := hrow j hj0 hj1
  have key := foldl_single_term
    (fun k => (readCell A (i * M + k)).getD 0 * (readCell B (k * M + j)).getD 0) j q M.toNat hqr
    (by
      simp only [hq, hI j hj0 hj1, if_true, Option.getD_some, Dbl.one_def]
      exact Dbl.fin_mul_one hqr)
    (by
      intro k hk0 hk1 hne
      obtain ⟨qk, hqk, _⟩ := hrow k hk0 (by omega)
      simp only [hqk, hI k hk0 (by omega), hne, if_false, Option.getD_some, Dbl.zero_def]
      exact Dbl.fin_mul_zero qk)
  have hin : 0 ≤ j ∧ j < (M.toNat : Int) := by omega
  rw [if_pos hin] at key
  rw [hq]
  unfold dotSpec loopRange
  exact congrArg some key

end DblLemmas

/-! ## The loops of `initializeMatrix` -/

section InitLemmas

open Dbl

theorem int_lt_two_pow_53 {n : Int} (h0 : INT_MIN ≤ n) (h1 : n ≤ INT_MAX) :
    -(2 : ℚ) ^ (53 : ℕ) < (n : ℚ) ∧ (n : ℚ) < (2 : ℚ) ^ (53 : ℕ) := by
  unfold INT_MIN at h0
  unfold INT_MAX at h1
  have e0 : ((-2147483648 : Int) : ℚ) ≤ (n : ℚ) := by exact_mod_cast h0
  have e1 : (n : ℚ) ≤ ((2147483647 : Int) : ℚ) := by exact_mod_cast h1
  constructor
  · have : -(2 : ℚ) ^ (53 : ℕ) < ((-2147483648 : Int) : ℚ) := by norm_num
    linarith
  · have : ((2147483647 : Int) : ℚ) < (2 : ℚ) ^ (53 : ℕ) := by norm_num
    linarith

/-- The value stored for a result `r` of `rand()` within `0 .. RAND_MAX` is a
finite double between `0` and `10`. -/
theorem randomCell_bounds (RAND_MAX r : Int) (h : 0 < RAND_MAX) (hmax : RAND_MAX ≤ INT_MAX)
    (h0 : 0 ≤ r) (h1 : r ≤ RAND_MAX) :
    ∃ v : ℚ, randomCell RAND_MAX r = fin v ∧ 0 ≤ v ∧ v ≤ 10 := by
  have hR : (0 : ℚ) < (RAND_MAX : ℚ) := by exact_mod_cast h
  have hr0 : (0 : ℚ) ≤ (r : ℚ) := by exact_mod_cast h0
  have hr1 : (r : ℚ) ≤ (RAND_MAX : ℚ) := by exact_mod_cast h1
  have hmin : INT_MIN ≤ 0 := by unfold INT_MIN; omega
  have er : Dbl.ofInt r = fin (r : ℚ) := by
    obtain ⟨a, b⟩ := int_lt_two_pow_53 (n := r) (by omega) (by omega)
    exact Dbl.round_intCast r a b
  have eR : Dbl.ofInt RAND_MAX = fin (RAND_MAX : ℚ) := by
    obtain ⟨a, b⟩ := int_lt_two_pow_53 (n := RAND_MAX) (by omega) hmax
    exact Dbl.round_intCast RAND_MAX a b
  have hd0 : ((0 : Int) : ℚ) ≤ (r : ℚ) / (RAND_MAX : ℚ) := by
    simpa using div_nonneg hr0 hR.le
  have hd1 : (r : ℚ) / (RAND_MAX : ℚ) ≤ ((1 : Int) : ℚ) := by
    simpa using (div_le_one hR).mpr hr1
  obtain ⟨ex, hx0, hx1⟩ := Dbl.round_between hd0 hd1 (by norm_num) (by norm_num)
  have hm0 : ((0 : Int) : ℚ) ≤ roundQ ((r : ℚ) / (RAND_MAX : ℚ)) * 10 := by
    push_cast at hx0 ⊢; linarith
  have hm1 : roundQ ((r : ℚ) / (RAND_MAX : ℚ)) * 10 ≤ ((10 : Int) : ℚ) := by
    push_cast at hx1 ⊢; linarith
  obtain ⟨ey, hy0, hy1⟩ := Dbl.round_between hm0 hm1 (by norm_num) (by norm_num)
  refine ⟨roundQ (roundQ ((r : ℚ) / (RAND_MAX : ℚ)) * 10), ?_, by simpa using hy0,
    by simpa using hy1⟩
  unfold randomCell
  rw [er, eR]
  show Dbl.mul (Dbl.div (fin (r : ℚ)) (fin (RAND_MAX : ℚ))) (fin 10) = _
  simp only [Dbl.div, hR.ne', if_false, ex, Dbl.mul, ey]

/-- The cell stored for `rand() = RAND_MAX - 1` with `RAND_MAX = 2147483647`:
the two rounded operations give the double `10737418235 / 2^30`, not the exact
quotient `21474836460 / 2147483647`. -/
theorem randomCell_example :
    randomCell 2147483647 2147483646 = fin (10737418235 / 1073741824) ∧
      randomCell 2147483647 2147483647 = fin 10 ∧
      randomCell 2147483647 0 = fin 0 := by
  decide!

/-- The column loop of `initializeMatrix` over the columns `a, ..., a+len-1`
of row `i`: column `a + t` receives the value drawn by call number `n + t`. -/
theorem initCols_spec (RAND_MAX : Int) (rand : Nat → Int) (cols i : Int) (len : Nat) :
    ∀ (a : Nat) (m : List Dbl) (n : Nat),
      (∀ t, t < len → Access m i cols ((a + t : Nat) : Int)) →
      ∃ m1, initCols RAND_MAX rand cols i ((List.range' a len).map Int.ofNat) (m, n)
          = some (m1, n + len) ∧
        m1.length = m.length ∧
        (∀ t, t < len → readCell m1 (i * cols + ((a + t : Nat) : Int))
          = some (randomCell RAND_MAX (rand (n + t)))) ∧
        (∀ idx, (∀ t, t < len → i * cols + ((a + t : Nat) : Int) ≠ idx) →
          readCell m1 idx = readCell m idx) := by
  induction len with
  | zero =>
    intro a m n _
    exact ⟨m, rfl, rfl, fun t ht => absurd ht (Nat.not_lt_zero t), fun _ _ => rfl⟩
  | succ len ih =>
    intro a m n hin
    obtain ⟨m0, hw0⟩ := (writeAt_isSome_iff m i cols ((a : Nat) : Int)
      (randomCell RAND_MAX (rand n))).mpr (by simpa using hin 0 (Nat.succ_pos _))
    have hw := ((writeAt_eq_some_iff _ _ _ _ _ _).mp hw0).2
    have hlen0 := writeCell_length hw
    obtain ⟨m1, hrun, hlen1, hcells, hframe⟩ := ih (a + 1) m0 (n + 1) (by
      intro t ht
      have := hin (t + 1) (by omega)
      unfold Access InBuf at this ⊢
      rw [hlen0]
      have e : a + 1 + t = a + (t + 1) := by omega
      rw [e]; exact this)
    refine ⟨m1, ?_, hlen1.trans hlen0, ?_, ?_⟩
    · simp only [List.range'_succ, List.map_cons, initCols, Int.ofNat_eq_coe, hw0]
      rw [hrun]
      congr 2
      omega
    · intro t ht
      rcases Nat.eq_zero_or_pos t with rfl | hpos
      · rw [hframe]
        · simpa using readCell_writeCell_same hw
        · intro t1 _ he
          simp only [add_zero] at he
          omega
      · have := hcells (t - 1) (by omega)
        have e1 : a + 1 + (t - 1) = a + t := by omega
        have e2 : n + 1 + (t - 1) = n + t := by omega
        rw [e1, e2] at this
        exact this
    · intro idx hidx
      rw [hframe]
      · apply readCell_writeCell_other hw
        simpa using hidx 0 (Nat.succ_pos _)
      · intro t ht
        have := hidx (t + 1) (by omega)
        have e : a + 1 + t = a + (t + 1) := by omega
        rw [e]; exact this

/-- The row loop of `initializeMatrix` over the rows `a, ..., a+len-1`: cell
`(a + r, t)` receives the value drawn by call number `n + r * cols + t`. -/
theorem initRows_spec (RAND_MAX : Int) (rand : Nat → Int) (c : Nat) (len : Nat) :
    ∀ (a : Nat) (m : List Dbl) (n : Nat),
      (∀ r t, r < len → t < c → Access m ((a + r : Nat) : Int) (c : Int) (t : Int)) →
      ∃ m1, initRows RAND_MAX rand (c : Int) ((List.range' a len).map Int.ofNat) (m, n)
          = some (m1, n + len * c) ∧
        m1.length = m.length ∧
        (∀ r t, r < len → t < c →
          readCell m1 (((a + r : Nat) : Int) * (c : Int) + (t : Int))
            = some (randomCell RAND_MAX (rand (n + r * c + t)))) ∧
        (∀ idx, (∀ r t, r < len → t < c → ((a + r : Nat) : Int) * (c : Int) + (t : Int) ≠ idx) →
          readCell m1 idx = readCell m idx) := by
  induction len with
  | zero =>
    intro a m n _
    exact ⟨m, by simp [initRows], rfl, fun r t hr => absurd hr (Nat.not_lt_zero r),
      fun _ _ => rfl⟩
  | succ len ih =>
    intro a m n hin
    have hrange : loopRange (c : Int) = (List.range' 0 c).map Int.ofNat := by
      unfold loopRange
      rw [Int.toNat_ofNat, List.range_eq_range']
    obtain ⟨m0, hrun0, hlen0, hcells0, hframe0⟩ :=
      initCols_spec RAND_MAX rand (c : Int) ((a : Nat) : Int) c 0 m n (by
        intro t ht
        simpa using hin 0 t (Nat.succ_pos _) ht)
    obtain ⟨m1, hrun, hlen1, hcells, hframe⟩ := ih (a + 1) m0 (n + c) (by
      intro r t hr ht
      have := hin (r + 1) t (by omega) ht
      unfold Access InBuf at this ⊢
      rw [hlen0]
      have e : a + 1 + r = a + (r + 1) := by omega
      rw [e]; exact this)
    refine ⟨m1, ?_, hlen1.trans hlen0, ?_, ?_⟩
    · simp only [List.range'_succ, List.map_cons, initRows, Int.ofNat_eq_coe, hrange, hrun0]
      rw [hrun]
      congr 2
      rw [Nat.succ_mul]; omega
    · intro r t hr ht
      rcases Nat.eq_zero_or_pos r with rfl | hpos
      · rw [hframe]
        · have := hcells0 t ht
          simpa using this
        · intro r1 t1 _ ht1 he
          have := cell_index_inj (by omega : 0 ≤ (t1 : Int) ∧ (t1 : Int) < (c : Int))
            (by omega : 0 ≤ (t : Int) ∧ (t : Int) < (c : Int)) he
          omega
      · have := hcells (r - 1) t (by omega) ht
        have e1 : a + 1 + (r - 1) = a + r := by omega
        have e2 : n + c + (r - 1) * c + t = n + r * c + t := by
          have : r = (r - 1) + 1 := by omega
          conv_rhs => rw [this, Nat.succ_mul]
          omega
        rw [e1, e2] at this
        exact this
    · intro idx hidx
      rw [hframe]
      · apply hframe0
        intro t ht
        simpa using hidx 0 t (Nat.succ_pos _) ht
      · intro r t hr ht
        have := hidx (r + 1) t (by omega) ht
        have e : a + 1 + r = a + (r + 1) := by omega
        rw [e]; exact this

end InitLemmas

section InitOverflow

/-- A column loop of `initializeMatrix` that returns has computed every store
index within `int`. -/
theorem initCols_intOK (RAND_MAX : Int) (rand : Nat → Int) (cols i : Int) (js : List Int) :
    ∀ (st st1 : List Dbl × Nat), initCols RAND_MAX rand cols i js st = some st1 →
      ∀ j ∈ js, IntOK (i * cols + j) := by
  induction js with
  | nil => intro _ _ _ j hj; cases hj
  | cons j0 js ih =>
    rintro ⟨m, n⟩ st1 h j hj
    simp only [initCols] at h
    cases hw : writeAt m i cols j0 (randomCell RAND_MAX (rand n)) with
    | none => simp [hw] at h
    | some m1 =>
      simp only [hw] at h
      rcases List.mem_cons.mp hj with rfl | hj1
      · exact ((writeAt_eq_some_iff _ _ _ _ _ _).mp hw).1.2.1
      · exact ih _ _ h j hj1

/-- A row loop of `initializeMatrix` that returns has computed every store
index within `int`. -/
theorem initRows_intOK (RAND_MAX : Int) (rand : Nat → Int) (cols : Int) (rows : List Int) :
    ∀ (st st1 : List Dbl × Nat), initRows RAND_MAX rand cols rows st = some st1 →
      ∀ i ∈ rows, ∀ j ∈ loopRange cols, IntOK (i * cols + j) := by
  induction rows with
  | nil => intro _ _ _ i hi; cases hi
  | cons i0 rows ih =>
    intro st st1 h i hi j hj
    simp only [initRows] at h
    cases hc : initCols RAND_MAX rand cols i0 (loopRange cols) st with
    | none => simp [hc] at h
    | some st0 =>
      simp only [hc] at h
      rcases List.mem_cons.mp hi with rfl | hi1
      · exact initCols_intOK _ _ _ _ _ _ _ hc j hj
      · exact ih _ _ h i hi1 j hj

/-- A call of `initializeMatrix` whose last store index does not fit `int` is
undefined, whatever the buffer. -/
theorem initializeMatrix_overflow (RAND_MAX : Int) (rand : Nat → Int) (matrix : List Dbl)
    (calls : Nat) (rows cols : Int) (hrows : 0 < rows) (hcols : 0 < cols)
    (h : INT_MAX < (rows - 1) * cols + (cols - 1)) :
    initializeMatrix RAND_MAX rand matrix calls rows cols = none := by
  cases hr : initializeMatrix RAND_MAX rand matrix calls rows cols with
  | none => rfl
  | some st1 =>
    have := initRows_intOK _ _ _ _ _ _ hr (rows - 1) (mem_loopRange.mpr ⟨by omega, by omega⟩)
      (cols - 1) (mem_loopRange.mpr ⟨by omega, by omega⟩)
    exact absurd this.2 (not_le.mpr h)

end InitOverflow

/-! ## Partitions of the row loop -/

section ParallelLemmas

theorem filter_workerRows (owner : Int → Nat) (N : Int) (t t1 : Nat) :
    (workerRows owner N t1).filter (fun i => owner i = t) =
      if t1 = t then workerRows owner N t else [] := by
  unfold workerRows
  rw [List.filter_filter]
  split
  · next h =>
    subst h
    congr 1
    funext i
    simp
  · next h =>
    apply List.filter_eq_nil_iff.mpr
    intro i _
    simp only [Bool.and_eq_true, decide_eq_true_eq, not_and]
    intro h1 h2
    exact h (h2.symm.trans h1)

theorem filter_workersInTurn (owner : Int → Nat) (N : Int) (T t : Nat) :
    (workersInTurn owner N T).filter (fun i => owner i = t) =
      if t < T then workerRows owner N t else [] := by
  unfold workersInTurn
  induction T with
  | zero => simp
  | succ T ih =>
    rw [List.range_succ, List.flatMap_append, List.filter_append, ih, List.flatMap_singleton,
      filter_workerRows]
    by_cases h1 : t < T
    · have h2 : T ≠ t := by omega
      have h3 : t < T + 1 := by omega
      simp [h1, h2, h3]
    · by_cases h2 : T = t
      · have h3 : t < T + 1 := by omega
        simp [h1, h2, h3]
      · have h3 : ¬ t < T + 1 := by omega
        simp [h1, h2, h3]

/-- Running the workers one after the other is an execution of the partitioned
loop. -/
theorem workersInTurn_isParallelOrder (owner : Int → Nat) (N : Int) (T : Nat) :
    IsParallelOrder owner N T (workersInTurn owner N T) := by
  constructor
  · intro i hi
    unfold workersInTurn at hi
    obtain ⟨t, _, ht⟩ := List.mem_flatMap.mp hi
    exact (List.mem_filter.mp ht).1
  · intro t ht
    rw [filter_workersInTurn, if_pos (List.mem_range.mp ht)]

/-- The round-robin partition gives every row to one of the `T` workers. -/
theorem roundRobinOwner_valid (N : Int) (T : Nat) (hT : 1 ≤ T) :
    OwnerValid (roundRobinOwner T) N T := by
  intro i _
  unfold roundRobinOwner
  have h1 : (0 : Int) < (T : Int) := by omega
  have := Int.emod_lt_of_pos i h1
  have := Int.emod_nonneg i h1.ne'
  omega

/-- The block partition gives every row to one of the `T` workers. -/
theorem blockOwner_valid (N : Int) (T : Nat) (hT : 1 ≤ T) :
    OwnerValid (blockOwner N T) N T := by
  intro i hi
  obtain ⟨hi0, hi1⟩ := mem_loopRange.mp hi
  unfold blockOwner
  have hT0 : (0 : Int) < (T : Int) := by omega
  have hchunk : 1 ≤ (N + T - 1) / (T : Int) := by
    apply Int.le_ediv_of_mul_le hT0
    omega
  have hcover : N ≤ (T : Int) * ((N + T - 1) / (T : Int)) := by
    have h1 := Int.emod_add_ediv (N + T - 1) (T : Int)
    have h2 := Int.emod_lt_of_pos (N + T - 1) hT0
    omega
  have hq : i / ((N + T - 1) / (T : Int)) < (T : Int) := by
    apply Int.ediv_lt_of_lt_mul (by omega)
    omega
  have hq0 : 0 ≤ i / ((N + T - 1) / (T : Int)) := Int.ediv_nonneg hi0 (by omega)
  omega

end ParallelLemmas

section KernelCells

variable {α : Type} [Zero α] [Add α] [Mul α]

/-- With buffers large enough for the dimensions and indices that fit `int`,
`multiplyMatrices` returns, keeps `A`, `B` and the size of `C`, and every cell
`(i, j)` of the result holds its accumulated sum. -/
theorem multiplyMatrices_cells (A B C : List α) (N M P : Int)
    (hA : N * M ≤ (A.length : Int)) (hB : M * P ≤ (B.length : Int))
    (hC : N * P ≤ (C.length : Int))
    (hNM : N * M ≤ INT_MAX + 1) (hMP : M * P ≤ INT_MAX + 1) (hNP : N * P ≤ INT_MAX + 1) :
    ∃ s, multiplyMatrices A B C N M P = some s ∧ s.A = A ∧ s.B = B ∧
      s.C.length = C.length ∧
      ∀ i j, 0 ≤ i → i < N → 0 ≤ j → j < P →
        readCell s.C (i * P + j) = some (dotSpec A B M P i j) := by
  obtain ⟨s, hs⟩ := rowLoop_exists (loopRange N) (cellOK_of_sizes hA hB hC hNM hMP hNP)
  obtain ⟨hsA, hsB, hlen, hw, _⟩ := (rowLoop_post _ hs).2
  refine ⟨s, hs, hsA, hsB, hlen, ?_⟩
  intro i j hi0 hi1 hj0 hj1
  exact hw i j ⟨mem_loopRange.mpr ⟨hi0, hi1⟩, mem_loopRange.mpr ⟨hj0, hj1⟩⟩

/-- With no row or no column to compute, `multiplyMatrices` returns at once
and leaves memory as it was. -/
theorem multiplyMatrices_empty (A B C : List α) (N M P : Int) (h : N ≤ 0 ∨ P ≤ 0) :
    multiplyMatrices A B C N M P = some ⟨A, B, C⟩ := by
  unfold multiplyMatrices
  rw [rowLoop_eq_some_iff]
  refine ⟨?_, rfl, rfl, rfl, ?_, fun _ _ => rfl⟩
  · intro i hi j hj
    have := mem_loopRange.mp hi
    have := mem_loopRange.mp hj
    omega
  · rintro i j ⟨hi, hj⟩
    have := mem_loopRange.mp hi
    have := mem_loopRange.mp hj
    omega

/-- A call whose last store index `(N-1) * P + (P-1)` does not fit `int` is
undefined, whatever the buffers. -/
theorem multiplyMatrices_overflow (A B C : List α) (N M P : Int) (hN : 0 < N) (hP : 0 < P)
    (h : INT_MAX < (N - 1) * P + (P - 1)) : multiplyMatrices A B C N M P = none :=
  rowLoop_none_of_overflow _ (mem_loopRange.mpr ⟨by omega, by omega⟩)
    (mem_loopRange.mpr ⟨by omega, by omega⟩) h

end KernelCells

/-! ## Properties of `multiplyMatrices` -/

section KernelClaims

variable {α : Type} [Zero α] [Add α] [Mul α]

/-- C1 (amended): for `A` of `N*M` cells, `B` of `M*P` cells and `C` of at least
`N*P` cells, with `N*M`, `M*P` and `N*P` at most `INT_MAX + 1` (every index
fits `int`), `multiplyMatrices` returns, and afterwards every cell
`C[i*P + j]` with `0 <= i < N`, `0 <= j < P` holds the sum accumulated from `0`
in the order `k = 0, ..., M-1` of `A[i*M + k] * B[k*P + j]`, each operand being
a cell that is read inside its buffer. -/
theorem multiplyMatrices_product (A B C : List α) (N M P : Int)
    (hA : (A.length : Int) = N * M) (hB : (B.length : Int) = M * P)
    (hC : N * P ≤ (C.length : Int))
    (hNM : N * M ≤ INT_MAX + 1) (hMP : M * P ≤ INT_MAX + 1) (hNP : N * P ≤ INT_MAX + 1) :
    ∃ s, multiplyMatrices A B C N M P = some s ∧
      ∀ i j, 0 ≤ i → i < N → 0 ≤ j → j < P →
        (∀ k, 0 ≤ k → k < M →
          ∃ a b, readCell A (i * M + k) = some a ∧ readCell B (k * P + j) = some b) ∧
        readCell s.C (i * P + j) = some ((loopRange M).foldl
          (fun sum k => sum + (readCell A (i * M + k)).getD 0 * (readCell B (k * P + j)).getD 0)
          0) := by
  obtain ⟨s, hs⟩ := rowLoop_exists (loopRange N) (cellOK_of_sizes hA.ge hB.ge hC hNM hMP hNP)
  obtain ⟨hok, hpost⟩ := rowLoop_post _ hs
  refine ⟨s, hs, ?_⟩
  intro i j hi0 hi1 hj0 hj1
  have hi := mem_loopRange.mpr ⟨hi0, hi1⟩
  have hj := mem_loopRange.mpr ⟨hj0, hj1⟩
  refine ⟨?_, hpost.2.2.2.1 i j ⟨hi, hj⟩⟩
  intro k hk0 hk1
  obtain ⟨hka, hkb⟩ := (hok i hi j hj).1 k (mem_loopRange.mpr ⟨hk0, hk1⟩)
  obtain ⟨a, ha⟩ := (readCell_isSome_iff A _).mpr hka.2.2
  obtain ⟨b, hb⟩ := (readCell_isSome_iff B _).mpr hkb.2.2
  exact ⟨a, b, ha, hb⟩

/-- C1 (as stated) fails for dimensions whose indices do not fit `int`: with
`N = 2`, `M = 1`, `P = 2^30 + 1` and buffers of `2`, `2^30 + 1` and `2^31 + 2`
cells, the store index `1 * P + (2^30 - 1) = 2^31` overflows and the call is
undefined. -/
theorem multiplyMatrices_product_counterexample :
    ((0 : Int) < 2 ∧ (0 : Int) < 1 ∧ (0 : Int) < 1073741825) ∧
    ((([Dbl.fin 1, Dbl.fin 1] : List Dbl).length : Int) = 2 * 1) ∧
    (((List.replicate 1073741825 (Dbl.fin 1)).length : Int) = 1 * 1073741825) ∧
    ((2 : Int) * 1073741825 ≤ ((List.replicate 2147483650 (Dbl.fin 0)).length : Int)) ∧
    multiplyMatrices [Dbl.fin 1, Dbl.fin 1] (List.replicate 1073741825 (Dbl.fin 1))
      (List.replicate 2147483650 (Dbl.fin 0)) 2 1 1073741825 = none := by
  refine ⟨by decide, by decide, ?_, ?_, ?_⟩
  · rw [List.length_replicate]; norm_num
  · rw [List.length_replicate]; norm_num
  · exact multiplyMatrices_overflow _ _ _ 2 1 1073741825 (by decide) (by decide)
      (by unfold INT_MAX; decide)

/-- C9 (amended): for non-negative dimensions with `N*M`, `M*P` and `N*P` at
most `INT_MAX + 1`, and buffers of exactly `N*M`, `M*P` and `N*P` cells, every
index used by `multiplyMatrices` is representable in `int` and inside its
buffer, and the call returns without taking an undefined branch, having
stored every cell of the product. -/
theorem multiplyMatrices_index_safe (A B C : List α) (N M P : Int)
    (hA : (A.length : Int) = N * M) (hB : (B.length : Int) = M * P)
    (hC : (C.length : Int) = N * P)
    (hNM : N * M ≤ INT_MAX + 1) (hMP : M * P ≤ INT_MAX + 1) (hNP : N * P ≤ INT_MAX + 1) :
    (∀ i j, 0 ≤ i → i < N → 0 ≤ j → j < P →
      (indexExpr i P j = some (i * P + j) ∧ 0 ≤ i * P + j ∧ i * P + j < N * P) ∧
        ∀ k, 0 ≤ k → k < M →
          (indexExpr i M k = some (i * M + k) ∧ 0 ≤ i * M + k ∧ i * M + k < N * M) ∧
          (indexExpr k P j = some (k * P + j) ∧ 0 ≤ k * P + j ∧ k * P + j < M * P)) ∧
      ∃ s, multiplyMatrices A B C N M P = some s ∧ s.A = A ∧ s.B = B ∧
        s.C.length = C.length ∧
        ∀ i j, 0 ≤ i → i < N → 0 ≤ j → j < P →
          readCell s.C (i * P + j) = some (dotSpec A B M P i j) := by
  have hok := cellOK_of_sizes hA.ge hB.ge hC.ge hNM hMP hNP
  refine ⟨?_, multiplyMatrices_cells A B C N M P hA.ge hB.ge hC.ge hNM hMP hNP⟩
  intro i j hi0 hi1 hj0 hj1
  obtain ⟨hreads, hstore⟩ := hok i (mem_loopRange.mpr ⟨hi0, hi1⟩) j (mem_loopRange.mpr ⟨hj0, hj1⟩)
  refine ⟨⟨(indexExpr_eq_some_iff _ _ _ _).mpr ⟨hstore.1, hstore.2.1, rfl⟩,
    flat_index_bounds hi0 hi1 hj0 hj1⟩, ?_⟩
  intro k hk0 hk1
  obtain ⟨ha, hb⟩ := hreads k (mem_loopRange.mpr ⟨hk0, hk1⟩)
  exact ⟨⟨(indexExpr_eq_some_iff _ _ _ _).mpr ⟨ha.1, ha.2.1, rfl⟩,
      flat_index_bounds hi0 hi1 hk0 hk1⟩,
    ⟨(indexExpr_eq_some_iff _ _ _ _).mpr ⟨hb.1, hb.2.1, rfl⟩,
      flat_index_bounds hk0 hk1 hj0 hj1⟩⟩

/-- C9 (as stated) fails: with `N = 2`, `M = 0`, `P = 2^30 + 1` and buffers of
exactly `0`, `0` and `2^31 + 2` cells, the store index `1 * P + (2^30 - 1)`
is `2^31`, which is not representable in `int`, and the call is undefined. -/
theorem multiplyMatrices_index_safe_counterexample :
    ((0 : Int) ≤ 2 ∧ (0 : Int) ≤ 0 ∧ (0 : Int) ≤ 1073741825) ∧
    (((([] : List Dbl)).length : Int) = 2 * 0) ∧
    (((([] : List Dbl)).length : Int) = 0 * 1073741825) ∧
    (((List.replicate 2147483650 (Dbl.fin 0)).length : Int) = 2 * 1073741825) ∧
    indexExpr 1 1073741825 1073741823 = none ∧
    multiplyMatrices ([] : List Dbl) [] (List.replicate 2147483650 (Dbl.fin 0))
      2 0 1073741825 = none := by
  refine ⟨by decide, by decide, by decide, ?_, by decide, ?_⟩
  · rw [List.length_replicate]; norm_num
  · exact multiplyMatrices_overflow _ _ _ 2 0 1073741825 (by decide) (by decide)
      (by unfold INT_MAX; decide)

/-- C10 (amended): for all integer dimensions, a call of `multiplyMatrices`
that is defined (every index expression representable in `int` and inside its
buffer) leaves `A` and `B` unchanged and `C` of the same size, changes no cell
of `C` other than the cells `i*P + j` with `0 <= i < N`, `0 <= j < P`, in
particular no cell at an index `>= N*P`, and leaves `C` unchanged altogether
when `N <= 0` or `P <= 0`. -/
theorem multiplyMatrices_frame (A B C : List α) (N M P : Int) (s : Mem α)
    (h : multiplyMatrices A B C N M P = some s) :
    s.A = A ∧ s.B = B ∧ s.C.length = C.length ∧
      (∀ idx, (∀ i j, 0 ≤ i → i < N → 0 ≤ j → j < P → i * P + j ≠ idx) →
        readCell s.C idx = readCell C idx) ∧
      (∀ idx, N * P ≤ idx → readCell s.C idx = readCell C idx) ∧
      (N ≤ 0 ∨ P ≤ 0 → s.C = C) := by
  obtain ⟨hA, hB, hlen, _, hframe⟩ := (rowLoop_post _ h).2
  have hfr : ∀ idx, (∀ i j, 0 ≤ i → i < N → 0 ≤ j → j < P → i * P + j ≠ idx) →
      readCell s.C idx = readCell C idx := by
    intro idx hidx
    apply hframe
    rintro i j ⟨hi, hj⟩
    obtain ⟨hi0, hi1⟩ := mem_loopRange.mp hi
    obtain ⟨hj0, hj1⟩ := mem_loopRange.mp hj
    exact hidx i j hi0 hi1 hj0 hj1
  refine ⟨hA, hB, hlen, hfr, ?_, ?_⟩
  · intro idx hidx
    apply hfr
    intro i j hi0 hi1 hj0 hj1 he
    have := (flat_index_bounds hi0 hi1 hj0 hj1).2
    omega
  · intro hNP
    apply buf_ext
    intro idx
    apply hfr
    intro i j hi0 hi1 hj0 hj1
    omega

/-- C10 (as stated) fails for dimensions whose store indices do not fit `int`:
with `N = 2`, `M = 0`, `P = 2^30 + 1` the index `1 * P + (2^30 - 1) = 2^31`
overflows, so the call is undefined and no frame is guaranteed (the store does
not go to a cell `i*P + j` of `C`). -/
theorem multiplyMatrices_frame_counterexample :
    ((1 : Int) ∈ loopRange 2 ∧ (1073741823 : Int) ∈ loopRange 1073741825) ∧
    asInt (1 * 1073741825 + 1073741823) = none ∧
    multiplyMatrices [Dbl.fin 1] [Dbl.fin 1] (List.replicate 2147483650 (Dbl.fin 0))
      2 0 1073741825 = none := by
  refine ⟨⟨mem_loopRange.mpr (by decide), mem_loopRange.mpr (by decide)⟩, by decide, ?_⟩
  exact multiplyMatrices_overflow _ _ _ 2 0 1073741825 (by decide) (by decide)
    (by unfold INT_MAX; decide)

/-- C6 (amended): for `P > 0`, buffers of the stated sizes and indices that fit
`int`, `multiplyMatrices` returns and keeps the size of `C`; each of the first
`N*P` cells of `C` then holds a value determined by `A`, `B` and its position
alone, the same whatever `C` held before the call; the cells from `N*P` on
keep their value; and a second call with the same `A`, `B` and dimensions
leaves memory exactly as the first call left it. -/
theorem multiplyMatrices_overwrites (A B C C1 : List α) (N M P : Int) (hP : 0 < P)
    (hA : (A.length : Int) = N * M) (hB : (B.length : Int) = M * P)
    (hC : N * P ≤ (C.length : Int)) (hC1 : N * P ≤ (C1.length : Int))
    (hNM : N * M ≤ INT_MAX + 1) (hMP : M * P ≤ INT_MAX + 1) (hNP : N * P ≤ INT_MAX + 1) :
    ∃ s s1, multiplyMatrices A B C N M P = some s ∧
      multiplyMatrices A B C1 N M P = some s1 ∧
      s.C.length = C.length ∧ s1.C.length = C1.length ∧
      (∀ idx, 0 ≤ idx → idx < N * P →
        readCell s.C idx = some (dotSpec A B M P (idx / P) (idx % P)) ∧
        readCell s1.C idx = some (dotSpec A B M P (idx / P) (idx % P))) ∧
      (∀ idx, N * P ≤ idx → readCell s.C idx = readCell C idx) ∧
      multiplyMatrices A B s.C N M P = some s := by
  obtain ⟨s, hs, hsA, hsB, hlen, hw⟩ := multiplyMatrices_cells A B C N M P hA.ge hB.ge hC
    hNM hMP hNP
  obtain ⟨s1, hs1, _, _, hlen1, hw1⟩ := multiplyMatrices_cells A B C1 N M P hA.ge hB.ge hC1
    hNM hMP hNP
  refine ⟨s, s1, hs, hs1, hlen, hlen1, ?_, ?_, ?_⟩
  · intro idx h0 h1
    obtain ⟨hi0, hi1, hj0, hj1, he⟩ := flat_index_split hP h0 h1
    have e := hw _ _ hi0 hi1 hj0 hj1
    have e1 := hw1 _ _ hi0 hi1 hj0 hj1
    rw [he] at e e1
    exact ⟨e, e1⟩
  · intro idx hidx
    apply (rowLoop_post _ hs).2.2.2.2.2
    rintro i j ⟨hi, hj⟩ he
    obtain ⟨hi0, hi1⟩ := mem_loopRange.mp hi
    obtain ⟨hj0, hj1⟩ := mem_loopRange.mp hj
    have := (flat_index_bounds hi0 hi1 hj0 hj1).2
    omega
  · unfold multiplyMatrices
    rw [rowLoop_eq_some_iff]
    refine ⟨cellOK_of_sizes hA.ge hB.ge (by rw [hlen]; exact hC) hNM hMP hNP,
      hsA, hsB, rfl, ?_, fun _ _ => rfl⟩
    rintro i j ⟨hi, hj⟩
    obtain ⟨hi0, hi1⟩ := mem_loopRange.mp hi
    obtain ⟨hj0, hj1⟩ := mem_loopRange.mp hj
    exact hw i j hi0 hi1 hj0 hj1

/-- C6 (as stated) fails for dimensions whose indices do not fit `int`: with
`N = 2^30 + 1`, `M = 1`, `P = 2` the store index `2^30 * 2 + 0 = 2^31`
overflows; the call is undefined and `C` is not overwritten as claimed. -/
theorem multiplyMatrices_overwrites_counterexample :
    ((0 : Int) < 1073741825 ∧ (0 : Int) < 1 ∧ (0 : Int) < 2) ∧
    (((List.replicate 1073741825 (Dbl.fin 1)).length : Int) = 1073741825 * 1) ∧
    ((([Dbl.fin 1, Dbl.fin 1] : List Dbl).length : Int) = 1 * 2) ∧
    ((1073741825 : Int) * 2 ≤ ((List.replicate 2147483650 (Dbl.fin 0)).length : Int)) ∧
    multiplyMatrices (List.replicate 1073741825 (Dbl.fin 1)) [Dbl.fin 1, Dbl.fin 1]
      (List.replicate 2147483650 (Dbl.fin 0)) 1073741825 1 2 = none := by
  refine ⟨by decide, ?_, by decide, ?_, ?_⟩
  · rw [List.length_replicate]; norm_num
  · rw [List.length_replicate]; norm_num
  · exact multiplyMatrices_overflow _ _ _ 1073741825 1 2 (by decide) (by decide)
      (by unfold INT_MAX; decide)

/-- C2 (amended): for buffers of the stated sizes and indices that fit `int`,
and two worker counts `T1`, `T2`, any execution of the row loop partitioned
over `T1` workers and any execution partitioned over `T2` workers return the
same memory as the sequential loop, and in it every cell `(i, j)` holds the sum
accumulated in the order `k = 0, ..., M-1`. -/
theorem multiplyMatrices_worker_count_independent (T1 T2 : Nat) (owner1 owner2 : Int → Nat)
    (sched1 sched2 : List Int) (A B C : List α) (N M P : Int)
    (hA : (A.length : Int) = N * M) (hB : (B.length : Int) = M * P)
    (hC : N * P ≤ (C.length : Int))
    (hNM : N * M ≤ INT_MAX + 1) (hMP : M * P ≤ INT_MAX + 1) (hNP : N * P ≤ INT_MAX + 1)
    (ho1 : OwnerValid owner1 N T1) (ho2 : OwnerValid owner2 N T2)
    (hs1 : IsParallelOrder owner1 N T1 sched1) (hs2 : IsParallelOrder owner2 N T2 sched2) :
    ∃ s, multiplyMatricesOn sched1 A B C M P = some s ∧
      multiplyMatricesOn sched2 A B C M P = some s ∧
      multiplyMatrices A B C N M P = some s ∧
      ∀ i j, 0 ≤ i → i < N → 0 ≤ j → j < P →
        readCell s.C (i * P + j) = some (dotSpec A B M P i j) := by
  obtain ⟨s, hs, _, _, _, hw⟩ := multiplyMatrices_cells A B C N M P hA.ge hB.ge hC hNM hMP hNP
  refine ⟨s, ?_, ?_, hs, hw⟩
  · unfold multiplyMatricesOn
    rw [rowLoop_congr_mem _ (mem_of_parallelOrder ho1 hs1)]; exact hs
  · unfold multiplyMatricesOn
    rw [rowLoop_congr_mem _ (mem_of_parallelOrder ho2 hs2)]; exact hs

/-- C2 (as stated) fails for dimensions whose indices do not fit `int`: with
`N = 2`, `M = 1`, `P = 2^30 + 1`, the row loop split over one worker (rows
`0, 1`) and over two workers (rows `1, 0`) is undefined in both cases, the
store index of row `1` reaching `2^31`. -/
theorem multiplyMatrices_worker_count_counterexample :
    IsParallelOrder (roundRobinOwner 1) 2 1 [0, 1] ∧
    IsParallelOrder (roundRobinOwner 2) 2 2 [1, 0] ∧
    multiplyMatricesOn [0, 1] [Dbl.fin 1, Dbl.fin 1] (List.replicate 1073741825 (Dbl.fin 1))
      (List.replicate 2147483650 (Dbl.fin 0)) 1 1073741825 = none ∧
    multiplyMatricesOn [1, 0] [Dbl.fin 1, Dbl.fin 1] (List.replicate 1073741825 (Dbl.fin 1))
      (List.replicate 2147483650 (Dbl.fin 0)) 1 1073741825 = none := by
  refine ⟨by decide, by decide, ?_, ?_⟩
  · exact rowLoop_none_of_overflow (i := 1) (j := 1073741823) _ (by decide)
      (mem_loopRange.mpr (by decide)) (by unfold INT_MAX; decide)
  · exact rowLoop_none_of_overflow (i := 1) (j := 1073741823) _ (by decide)
      (mem_loopRange.mpr (by decide)) (by unfold INT_MAX; decide)

end KernelClaims

section DblClaims

open Dbl

theorem readCell_finite {A : List Dbl} (hfin : ∀ x ∈ A, x.isFinite = true) {idx : Int}
    (h : InBuf A idx) : ∃ q, readCell A idx = some (fin q) ∧ Dbl.round q = fin q := by
  obtain ⟨v, hv⟩ := (readCell_isSome_iff A idx).mpr h
  obtain ⟨q, rfl, hq⟩ := (Dbl.isFinite_iff v).mp (hfin v (readCell_mem hv))
  exact ⟨q, hv, hq⟩

theorem readCell_zero {A : List Dbl} (hz : ∀ x ∈ A, x = 0) {idx : Int}
    (h : InBuf A idx) : readCell A idx = some (fin 0) := by
  obtain ⟨v, hv⟩ := (readCell_isSome_iff A idx).mpr h
  rw [hv, hz v (readCell_mem hv)]; rfl

/-- C3 (amended): if every cell of `A` is a finite double, `B` is the `M × M`
identity matrix and `N*M`, `M*M` are at most `INT_MAX + 1` (every index fits
`int`), then `multiplyMatrices(A, B, C, N, M, M)` returns and
`C[i*M + j] = A[i*M + j]` for every `0 <= i < N`, `0 <= j < M` (as values, the
sign of a zero not being represented). -/
theorem multiplyMatrices_identity (A B C : List Dbl) (N M : Int)
    (hA : (A.length : Int) = N * M) (hfin : ∀ x ∈ A, x.isFinite = true)
    (hB : (B.length : Int) = M * M)
    (hI : ∀ k j, 0 ≤ k → k < M → 0 ≤ j → j < M →
      readCell B (k * M + j) = some (if k = j then 1 else 0))
    (hC : N * M ≤ (C.length : Int))
    (hNM : N * M ≤ INT_MAX + 1) (hMM : M * M ≤ INT_MAX + 1) :
    ∃ s, multiplyMatrices A B C N M M = some s ∧
      ∀ i j, 0 ≤ i → i < N → 0 ≤ j → j < M →
        readCell s.C (i * M + j) = readCell A (i * M + j) := by
  obtain ⟨s, hs, _, _, _, hcells⟩ :=
    multiplyMatrices_cells A B C N M M hA.ge hB.ge hC hNM hMM hNM
  refine ⟨s, hs, ?_⟩
  intro i j hi0 hi1 hj0 hj1
  rw [hcells i j hi0 hi1 hj0 hj1]
  apply dotSpec_identity A B M i j hj0 hj1
  · intro k hk0 hk1
    apply readCell_finite hfin
    have := flat_index_bounds hi0 hi1 hk0 hk1
    exact ⟨this.1, by omega⟩
  · intro k hk0 hk1
    exact hI k j hk0 hk1 hj0 hj1

/-- C4 (amended): if every cell of `A` and of `B` is a finite double, every
cell of `A` is zero or every cell of `B` is zero, and `N*M`, `M*P`, `N*P` are
at most `INT_MAX + 1` (every index fits `int`), then `multiplyMatrices`
returns and every cell `C[i*P + j]` with `0 <= i < N`, `0 <= j < P` is zero. -/
theorem multiplyMatrices_zero (A B C : List Dbl) (N M P : Int)
    (hA : (A.length : Int) = N * M) (hB : (B.length : Int) = M * P)
    (hC : N * P ≤ (C.length : Int))
    (hNM : N * M ≤ INT_MAX + 1) (hMP : M * P ≤ INT_MAX + 1) (hNP : N * P ≤ INT_MAX + 1)
    (hfinA : ∀ x ∈ A, x.isFinite = true) (hfinB : ∀ y ∈ B, y.isFinite = true)
    (hz : (∀ x ∈ A, x = 0) ∨ (∀ y ∈ B, y = 0)) :
    ∃ s, multiplyMatrices A B C N M P = some s ∧
      ∀ i j, 0 ≤ i → i < N → 0 ≤ j → j < P → readCell s.C (i * P + j) = some 0 := by
  obtain ⟨s, hs, _, _, _, hcells⟩ :=
    multiplyMatrices_cells A B C N M P hA.ge hB.ge hC hNM hMP hNP
  refine ⟨s, hs, ?_⟩
  intro i j hi0 hi1 hj0 hj1
  rw [hcells i j hi0 hi1 hj0 hj1]
  apply congrArg some
  apply foldl_zero_terms
    (fun k => (readCell A (i * M + k)).getD 0 * (readCell B (k * P + j)).getD 0)
  intro k hk
  obtain ⟨hk0, hk1⟩ := mem_loopRange.mp hk
  have hAin : InBuf A (i * M + k) := by
    have := flat_index_bounds hi0 hi1 hk0 hk1
    exact ⟨this.1, by omega⟩
  have hBin : InBuf B (k * P + j) := by
    have := flat_index_bounds hk0 hk1 hj0 hj1
    exact ⟨this.1, by omega⟩
  rcases hz with hz | hz
  · obtain ⟨q, hq, _⟩ := readCell_finite hfinB hBin
    simp only [readCell_zero hz hAin, hq, Option.getD_some]
    exact Dbl.zero_mul_fin q
  · obtain ⟨q, hq, _⟩ := readCell_finite hfinA hAin
    simp only [readCell_zero hz hBin, hq, Option.getD_some]
    exact Dbl.fin_mul_zero q

/-- C3 (as stated) fails in two ways.  With `A = [+inf, 0]` (`N = 1`, `M = 2`)
and `B` the `2 × 2` identity, the cell `C[0*2 + 1]` is NaN (`inf * 0 + 0 * 1`)
while `A[0*2 + 1]` is `0`.  With `N = 2^30 + 1`, `M = 2` the store index
`2^30 * 2 + 0 = 2^31` does not fit `int` and the call is undefined. -/
theorem multiplyMatrices_identity_counterexample :
    (multiplyMatrices [pinf, fin 0] [fin 1, fin 0, fin 0, fin 1] [fin 0, fin 0] 1 2 2
        = some ⟨[pinf, fin 0], [fin 1, fin 0, fin 0, fin 1], [pinf, nan]⟩ ∧
      readCell [pinf, nan] (0 * 2 + 1) ≠ readCell [pinf, fin 0] (0 * 2 + 1)) ∧
    (((List.replicate 2147483650 (fin 1)).length : Int) = 1073741825 * 2 ∧
      (∀ x ∈ List.replicate 2147483650 (fin 1), x.isFinite = true) ∧
      multiplyMatrices (List.replicate 2147483650 (fin 1)) [fin 1, fin 0, fin 0, fin 1]
        (List.replicate 2147483650 (fin 0)) 1073741825 2 2 = none) := by
  refine ⟨by decide!, ?_, ?_, ?_⟩
  · rw [List.length_replicate]; norm_num
  · intro x hx
    rw [List.eq_of_mem_replicate hx]
    decide!
  · exact multiplyMatrices_overflow _ _ _ 1073741825 2 2 (by decide) (by decide)
      (by unfold INT_MAX; decide)

/-- C4 (as stated) fails in two ways.  With `A = [0]` and `B = [+inf]`
(`N = M = P = 1`) the cell `C[0]` is NaN (`0 * inf`), not zero.  With `A` all
zero, `N = 2`, `M = 1`, `P = 2^30 + 1` the store index `1 * P + (2^30 - 1)`
is `2^31`, which does not fit `int`, and the call is undefined. -/
theorem multiplyMatrices_zero_counterexample :
    (multiplyMatrices [fin 0] [pinf] [fin 0] 1 1 1 = some ⟨[fin 0], [pinf], [nan]⟩ ∧
      readCell [nan] (0 * 1 + 0) ≠ some (0 : Dbl)) ∧
    (((List.replicate 1073741825 (fin 1)).length : Int) = 1 * 1073741825 ∧
      (∀ y ∈ List.replicate 1073741825 (fin 1), y.isFinite = true) ∧
      (2 : Int) * 1073741825 ≤ ((List.replicate 2147483650 (fin 0)).length : Int) ∧
      multiplyMatrices [fin 0, fin 0] (List.replicate 1073741825 (fin 1))
        (List.replicate 2147483650 (fin 0)) 2 1 1073741825 = none) := by
  refine ⟨by decide!, ?_, ?_, ?_, ?_⟩
  · rw [List.length_replicate]; norm_num
  · intro y hy
    rw [List.eq_of_mem_replicate hy]
    decide!
  · rw [List.length_replicate]; norm_num
  · exact multiplyMatrices_overflow _ _ _ 2 1 1073741825 (by decide) (by decide)
      (by unfold INT_MAX; decide)

/-- C7: with `N = M = P = 2`, `A = [1,2,3,4]` and `B = [5,6,7,8]`,
`multiplyMatrices` leaves `C = [19,22,43,50]` whatever `C` held before, and so
does the row loop run by one worker and by two workers (block or round-robin
partition, the two workers in either order). -/
theorem multiplyMatrices_scenario (c0 c1 c2 c3 : Dbl) :
    multiplyMatrices [fin 1, fin 2, fin 3, fin 4] [fin 5, fin 6, fin 7, fin 8] [c0, c1, c2, c3]
        2 2 2
      = some ⟨[fin 1, fin 2, fin 3, fin 4], [fin 5, fin 6, fin 7, fin 8],
          [fin 19, fin 22, fin 43, fin 50]⟩ ∧
    multiplyMatricesOn (workersInTurn (blockOwner 2 1) 2 1)
        [fin 1, fin 2, fin 3, fin 4] [fin 5, fin 6, fin 7, fin 8] [c0, c1, c2, c3] 2 2
      = some ⟨[fin 1, fin 2, fin 3, fin 4], [fin 5, fin 6, fin 7, fin 8],
          [fin 19, fin 22, fin 43, fin 50]⟩ ∧
    multiplyMatricesOn (workersInTurn (blockOwner 2 2) 2 2)
        [fin 1, fin 2, fin 3, fin 4] [fin 5, fin 6, fin 7, fin 8] [c0, c1, c2, c3] 2 2
      = some ⟨[fin 1, fin 2, fin 3, fin 4], [fin 5, fin 6, fin 7, fin 8],
          [fin 19, fin 22, fin 43, fin 50]⟩ ∧
    multiplyMatricesOn (workersInTurn (roundRobinOwner 2) 2 2)
        [fin 1, fin 2, fin 3, fin 4] [fin 5, fin 6, fin 7, fin 8] [c0, c1, c2, c3] 2 2
      = some ⟨[fin 1, fin 2, fin 3, fin 4], [fin 5, fin 6, fin 7, fin 8],
          [fin 19, fin 22, fin 43, fin 50]⟩ ∧
    (IsParallelOrder (blockOwner 2 2) 2 2 [1, 0] ∧
      multiplyMatricesOn [1, 0]
          [fin 1, fin 2, fin 3, fin 4] [fin 5, fin 6, fin 7, fin 8] [c0, c1, c2, c3] 2 2
        = some ⟨[fin 1, fin 2, fin 3, fin 4], [fin 5, fin 6, fin 7, fin 8],
            [fin 19, fin 22, fin 43, fin 50]⟩) := by
  have e1 : workersInTurn (blockOwner 2 1) 2 1 = [0, 1] := by decide
  have e2 : workersInTurn (blockOwner 2 2) 2 2 = [0, 1] := by decide
  have e3 : workersInTurn (roundRobinOwner 2) 2 2 = [0, 1] := by decide
  have e4 : IsParallelOrder (blockOwner 2 2) 2 2 [1, 0] := by decide
  have l2 : loopRange 2 = [0, 1] := by decide
  have a5 : (0 : Dbl) + fin 1 * fin 5 + fin 2 * fin 7 = fin 19 := by decide!
  have a6 : (0 : Dbl) + fin 1 * fin 6 + fin 2 * fin 8 = fin 22 := by decide!
  have b5 : (0 : Dbl) + fin 3 * fin 5 + fin 4 * fin 7 = fin 43 := by decide!
  have b6 : (0 : Dbl) + fin 3 * fin 6 + fin 4 * fin 8 = fin 50 := by decide!
  have x00 : indexExpr 0 2 0 = some 0 := by decide
  have x01 : indexExpr 0 2 1 = some 1 := by decide
  have x10 : indexExpr 1 2 0 = some 2 := by decide
  have x11 : indexExpr 1 2 1 = some 3 := by decide
  rw [e1, e2, e3]
  refine ⟨?_, ?_, ?_, ?_, e4, ?_⟩ <;>
    simp [multiplyMatrices, multiplyMatricesOn, rowLoop, colLoop, sumLoop, l2, readAt, writeAt,
      x00, x01, x10, x11, readCell, writeCell, a5, a6, b5, b6]

end DblClaims

section DriverClaims

open Dbl

/-- C5 (amended): for positive `rows`, `cols` with `rows*cols <= INT_MAX + 1`
(every index fits `int`), `RAND_MAX` a positive `int` and every sequence of
results of `rand()` within `0 .. RAND_MAX`, `initializeMatrix` returns after
exactly `rows*cols` calls of `rand()`, and every cell `matrix[i*cols + j]`
holds the double `(double) r / RAND_MAX * 10.0` computed from the result `r` of
its own call, a finite value `v` with `0 <= v <= 10` (the closed range). -/
theorem initializeMatrix_range (RAND_MAX : Int) (rand : Nat → Int) (matrix : List Dbl)
    (calls : Nat) (rows cols : Int)
    (hRM : 0 < RAND_MAX) (hRMint : RAND_MAX ≤ INT_MAX)
    (hrand : ∀ n, 0 ≤ rand n ∧ rand n ≤ RAND_MAX)
    (hrows : 0 < rows) (hcols : 0 < cols)
    (hlen : (matrix.length : Int) = rows * cols) (hfit : rows * cols ≤ INT_MAX + 1) :
    ∃ m1, initializeMatrix RAND_MAX rand matrix calls rows cols
        = some (m1, calls + (rows * cols).toNat) ∧
      m1.length = matrix.length ∧
      ∀ i j, 0 ≤ i → i < rows → 0 ≤ j → j < cols →
        ∃ v : ℚ, readCell m1 (i * cols + j) = some (fin v) ∧
          fin v = randomCell RAND_MAX (rand (calls + (i * cols + j).toNat)) ∧
          0 ≤ v ∧ v ≤ 10 := by
  obtain ⟨c, rfl⟩ := Int.eq_ofNat_of_zero_le hcols.le
  obtain ⟨r, rfl⟩ := Int.eq_ofNat_of_zero_le hrows.le
  obtain ⟨m1, hrun, hl, hcells, _⟩ := initRows_spec RAND_MAX rand c r 0 matrix calls (by
    intro r1 t hr1 ht
    have hb := flat_index_bounds (N := (r : Int)) (M := (c : Int)) (i := (r1 : Int))
      (k := (t : Int)) (by omega) (by omega) (by omega) (by omega)
    have h2 : (0 : Int) ≤ (r1 : Int) * (c : Int) := mul_nonneg (by omega) (by omega)
    simp only [zero_add]
    unfold Access IntOK InBuf INT_MIN
    unfold INT_MAX at hfit ⊢
    omega)
  refine ⟨m1, ?_, hl, ?_⟩
  · unfold initializeMatrix loopRange
    rw [Int.toNat_ofNat, List.range_eq_range', hrun]
    congr 2
  · intro i j hi0 hi1 hj0 hj1
    obtain ⟨i1, rfl⟩ := Int.eq_ofNat_of_zero_le hi0
    obtain ⟨j1, rfl⟩ := Int.eq_ofNat_of_zero_le hj0
    have hc := hcells i1 j1 (by omega) (by omega)
    simp only [zero_add] at hc
    have e : ((i1 : Int) * (c : Int) + (j1 : Int)).toNat = i1 * c + j1 := by
      rw [← Int.ofNat_mul, ← Int.ofNat_add, Int.toNat_ofNat]
    rw [e, ← Nat.add_assoc]
    obtain ⟨v, hv, hv0, hv1⟩ := randomCell_bounds RAND_MAX (rand (calls + i1 * c + j1)) hRM
      hRMint (hrand _).1 (hrand _).2
    exact ⟨v, by rw [hc, hv], hv.symm, hv0, hv1⟩

/-- C5 (as stated) fails in two ways.  When `rand()` returns `RAND_MAX` (here
`2147483647`) the cell is written with `RAND_MAX / RAND_MAX * 10 = 10`, which
is not below `10`.  With `rows = 2`, `cols = 2^30 + 1` the store index
`1 * cols + (2^30 - 1) = 2^31` does not fit `int` and the call is undefined. -/
theorem initializeMatrix_range_counterexample :
    (initializeMatrix 2147483647 (fun _ => 2147483647) [fin 0] 0 1 1 = some ([fin 10], 1) ∧
      ¬ ((10 : ℚ) < 10)) ∧
    (((List.replicate 2147483650 (fin 0)).length : Int) = 2 * 1073741825 ∧
      initializeMatrix 2147483647 (fun _ => 0) (List.replicate 2147483650 (fin 0)) 0
        2 1073741825 = none) := by
  refine ⟨by decide!, ?_, ?_⟩
  · rw [List.length_replicate]; norm_num
  · exact initializeMatrix_overflow _ _ _ _ 2 1073741825 (by decide) (by decide)
      (by unfold INT_MAX; decide)

/-- C8 (amended): the sweep runs `multiplyMatrices` with the entries of
`{1, 2, 4, max}` that do not exceed `max`, in that order and with no other
count; every such count is run once, except that `max` is run twice when it is
`1`, `2` or `4` (it then occurs twice in `thread_counts`). -/
theorem threadSweep_counts (max_threads : Int) :
    threadSweep max_threads = (thread_counts max_threads).filter (fun c => c ≤ max_threads) ∧
      (∀ c, c ∈ threadSweep max_threads ↔
        (c = 1 ∨ c = 2 ∨ c = 4 ∨ c = max_threads) ∧ c ≤ max_threads) ∧
      (∀ c, c ∈ threadSweep max_threads →
        (threadSweep max_threads).count c =
          if c = max_threads ∧ (max_threads = 1 ∨ max_threads = 2 ∨ max_threads = 4)
          then 2 else 1) := by
  have hsweep : threadSweep max_threads
      = (thread_counts max_threads).filter (fun c => c ≤ max_threads) := by
    unfold threadSweep thread_counts
    simp only [sweepLoop, List.filter, gt_iff_lt]
    by_cases h1 : (1 : Int) ≤ max_threads <;> by_cases h2 : (2 : Int) ≤ max_threads <;>
      by_cases h4 : (4 : Int) ≤ max_threads <;>
      simp [h1, h2, h4, not_lt.mpr, not_le.mp]
  refine ⟨hsweep, ?_, ?_⟩
  · intro c
    rw [hsweep]
    simp [thread_counts, List.mem_filter]
  · intro c hc
    rw [hsweep] at hc ⊢
    simp only [thread_counts, List.mem_filter, List.mem_cons, List.mem_singleton,
      List.not_mem_nil, or_false, decide_eq_true_eq] at hc
    obtain ⟨hmem, hle⟩ := hc
    simp only [thread_counts, List.filter, List.count_cons]
    by_cases h1 : (1 : Int) ≤ max_threads <;> by_cases h2 : (2 : Int) ≤ max_threads <;>
      by_cases h4 : (4 : Int) ≤ max_threads <;>
      simp only [h1, h2, h4, le_refl, decide_True, decide_False, List.count_cons,
        List.count_nil, beq_iff_eq] <;>
      split_ifs <;> omega

/-- C8 (as stated) fails: with `max = 4` the sweep runs the multiplier with the
counts `1, 2, 4, 4`, so the count `4` is used twice, not once. -/
theorem threadSweep_counterexample :
    threadSweep 4 = [1, 2, 4, 4] ∧ (threadSweep 4).count 4 = 2 := by
  decide

end DriverClaims

/-! ## The theorems at concrete inputs -/

section Witnesses

open Dbl

/-- The product theorem at the `2 × 2` scenario, with a longer output buffer. -/
theorem multiplyMatrices_product_witness :
    ((([fin 1, fin 2, fin 3, fin 4] : List Dbl).length : Int) = 2 * 2) ∧
    ((([fin 5, fin 6, fin 7, fin 8] : List Dbl).length : Int) = 2 * 2) ∧
    ((2 : Int) * 2 ≤ (([nan, nan, nan, nan, nan] : List Dbl).length : Int)) ∧
    ((2 : Int) * 2 ≤ INT_MAX + 1) ∧ ((2 : Int) * 2 ≤ INT_MAX + 1) ∧
    ((2 : Int) * 2 ≤ INT_MAX + 1) ∧
    ∃ s, multiplyMatrices [fin 1, fin 2, fin 3, fin 4] [fin 5, fin 6, fin 7, fin 8]
        [nan, nan, nan, nan, nan] 2 2 2 = some s ∧
      ∀ i j : Int, 0 ≤ i → i < 2 → 0 ≤ j → j < 2 →
        (∀ k : Int, 0 ≤ k → k < 2 →
          ∃ a b, readCell [fin 1, fin 2, fin 3, fin 4] (i * 2 + k) = some a ∧
            readCell [fin 5, fin 6, fin 7, fin 8] (k * 2 + j) = some b) ∧
        readCell s.C (i * 2 + j) = some ((loopRange 2).foldl
          (fun sum k => sum + (readCell [fin 1, fin 2, fin 3, fin 4] (i * 2 + k)).getD 0 *
            (readCell [fin 5, fin 6, fin 7, fin 8] (k * 2 + j)).getD 0) 0) :=
  ⟨by decide, by decide, by decide, by decide, by decide, by decide,
    multiplyMatrices_product [fin 1, fin 2, fin 3, fin 4] [fin 5, fin 6, fin 7, fin 8]
      [nan, nan, nan, nan, nan] 2 2 2 (by decide) (by decide) (by decide) (by decide)
      (by decide) (by decide)⟩

/-- Index safety at a `2 × 3` by `3 × 1` product. -/
theorem multiplyMatrices_index_safe_witness :
    ((([fin 1, fin 2, fin 3, fin 4, fin 5, fin 6] : List Dbl).length : Int) = 2 * 3) ∧
    ((([fin 1, fin 0, fin 2] : List Dbl).length : Int) = 3 * 1) ∧
    ((([nan, nan] : List Dbl).length : Int) = 2 * 1) ∧
    ((2 : Int) * 3 ≤ INT_MAX + 1) ∧ ((3 : Int) * 1 ≤ INT_MAX + 1) ∧
    ((2 : Int) * 1 ≤ INT_MAX + 1) ∧
    ((∀ i j : Int, 0 ≤ i → i < 2 → 0 ≤ j → j < 1 →
      (indexExpr i 1 j = some (i * 1 + j) ∧ 0 ≤ i * 1 + j ∧ i * 1 + j < 2 * 1) ∧
        ∀ k : Int, 0 ≤ k → k < 3 →
          (indexExpr i 3 k = some (i * 3 + k) ∧ 0 ≤ i * 3 + k ∧ i * 3 + k < 2 * 3) ∧
          (indexExpr k 1 j = some (k * 1 + j) ∧ 0 ≤ k * 1 + j ∧ k * 1 + j < 3 * 1)) ∧
      ∃ s, multiplyMatrices [fin 1, fin 2, fin 3, fin 4, fin 5, fin 6] [fin 1, fin 0, fin 2]
          [nan, nan] 2 3 1 = some s ∧
        s.A = [fin 1, fin 2, fin 3, fin 4, fin 5, fin 6] ∧ s.B = [fin 1, fin 0, fin 2] ∧
        s.C.length = ([nan, nan] : List Dbl).length ∧
        ∀ i j : Int, 0 ≤ i → i < 2 → 0 ≤ j → j < 1 →
          readCell s.C (i * 1 + j) = some (dotSpec [fin 1, fin 2, fin 3, fin 4, fin 5, fin 6]
            [fin 1, fin 0, fin 2] 3 1 i j)) :=
  ⟨by decide, by decide, by decide, by decide, by decide, by decide,
    multiplyMatrices_index_safe [fin 1, fin 2, fin 3, fin 4, fin 5, fin 6] [fin 1, fin 0, fin 2]
      [nan, nan] 2 3 1 (by decide) (by decide) (by decide) (by decide) (by decide)
      (by decide)⟩

/-- The frame theorem at a `1 × 1` by `1 × 2` product whose output buffer has a
third cell, which keeps its value. -/
theorem multiplyMatrices_frame_witness :
    multiplyMatrices [fin 2] [fin 3, fin 4] [nan, nan, pinf] 1 1 2
        = some ⟨[fin 2], [fin 3, fin 4], [fin 6, fin 8, pinf]⟩ ∧
    (([fin 2] : List Dbl) = [fin 2] ∧ ([fin 3, fin 4] : List Dbl) = [fin 3, fin 4] ∧
      ([fin 6, fin 8, pinf] : List Dbl).length = ([nan, nan, pinf] : List Dbl).length ∧
      (∀ idx : Int, (∀ i j : Int, 0 ≤ i → i < 1 → 0 ≤ j → j < 2 → i * 2 + j ≠ idx) →
        readCell [fin 6, fin 8, pinf] idx = readCell [nan, nan, pinf] idx) ∧
      (∀ idx : Int, 1 * 2 ≤ idx →
        readCell [fin 6, fin 8, pinf] idx = readCell [nan, nan, pinf] idx) ∧
      ((1 : Int) ≤ 0 ∨ (2 : Int) ≤ 0 → ([fin 6, fin 8, pinf] : List Dbl) = [nan, nan, pinf])) :=
  ⟨by decide!,
    multiplyMatrices_frame [fin 2] [fin 3, fin 4] [nan, nan, pinf] 1 1 2
      ⟨[fin 2], [fin 3, fin 4], [fin 6, fin 8, pinf]⟩ (by decide!)⟩

/-- The overwrite theorem for two different initial contents of `C`, the first
with a third cell beyond the `1 × 2` result. -/
theorem multiplyMatrices_overwrites_witness :
    (0 : Int) < 2 ∧
    ((([fin 2] : List Dbl).length : Int) = 1 * 1) ∧
    ((([fin 3, fin 4] : List Dbl).length : Int) = 1 * 2) ∧
    ((1 : Int) * 2 ≤ (([nan, nan, pinf] : List Dbl).length : Int)) ∧
    ((1 : Int) * 2 ≤ (([fin 7, ninf] : List Dbl).length : Int)) ∧
    ((1 : Int) * 1 ≤ INT_MAX + 1) ∧ ((1 : Int) * 2 ≤ INT_MAX + 1) ∧
    ((1 : Int) * 2 ≤ INT_MAX + 1) ∧
    ∃ s s1, multiplyMatrices [fin 2] [fin 3, fin 4] [nan, nan, pinf] 1 1 2 = some s ∧
      multiplyMatrices [fin 2] [fin 3, fin 4] [fin 7, ninf] 1 1 2 = some s1 ∧
      s.C.length = ([nan, nan, pinf] : List Dbl).length ∧
      s1.C.length = ([fin 7, ninf] : List Dbl).length ∧
      (∀ idx : Int, 0 ≤ idx → idx < 1 * 2 →
        readCell s.C idx = some (dotSpec [fin 2] [fin 3, fin 4] 1 2 (idx / 2) (idx % 2)) ∧
        readCell s1.C idx = some (dotSpec [fin 2] [fin 3, fin 4] 1 2 (idx / 2) (idx % 2))) ∧
      (∀ idx : Int, 1 * 2 ≤ idx → readCell s.C idx = readCell [nan, nan, pinf] idx) ∧
      multiplyMatrices [fin 2] [fin 3, fin 4] s.C 1 1 2 = some s :=
  ⟨by decide, by decide, by decide, by decide, by decide, by decide, by decide, by decide,
    multiplyMatrices_overwrites [fin 2] [fin 3, fin 4] [nan, nan, pinf] [fin 7, ninf] 1 1 2
      (by decide) (by decide) (by decide) (by decide) (by decide) (by decide) (by decide)
      (by decide)⟩

/-- Worker-count independence for three rows: two workers with the block
partition, interleaved as `0, 2, 1`, and three workers with the round-robin
partition, run as `2, 1, 0`. -/
theorem multiplyMatrices_worker_count_independent_witness :
    ((([fin 1, fin 2, fin 3] : List Dbl).length : Int) = 3 * 1) ∧
    ((([fin 5, fin 6] : List Dbl).length : Int) = 1 * 2) ∧
    ((3 : Int) * 2 ≤ (([nan, nan, nan, nan, nan, nan] : List Dbl).length : Int)) ∧
    ((3 : Int) * 1 ≤ INT_MAX + 1) ∧ ((1 : Int) * 2 ≤ INT_MAX + 1) ∧
    ((3 : Int) * 2 ≤ INT_MAX + 1) ∧
    OwnerValid (blockOwner 3 2) 3 2 ∧ OwnerValid (roundRobinOwner 3) 3 3 ∧
    IsParallelOrder (blockOwner 3 2) 3 2 [0, 2, 1] ∧
    IsParallelOrder (roundRobinOwner 3) 3 3 [2, 1, 0] ∧
    ∃ s, multiplyMatricesOn [0, 2, 1] [fin 1, fin 2, fin 3] [fin 5, fin 6]
        [nan, nan, nan, nan, nan, nan] 1 2 = some s ∧
      multiplyMatricesOn [2, 1, 0] [fin 1, fin 2, fin 3] [fin 5, fin 6]
        [nan, nan, nan, nan, nan, nan] 1 2 = some s ∧
      multiplyMatrices [fin 1, fin 2, fin 3] [fin 5, fin 6]
        [nan, nan, nan, nan, nan, nan] 3 1 2 = some s ∧
      ∀ i j : Int, 0 ≤ i → i < 3 → 0 ≤ j → j < 2 →
        readCell s.C (i * 2 + j)
          = some (dotSpec [fin 1, fin 2, fin 3] [fin 5, fin 6] 1 2 i j) :=
  ⟨by decide, by decide, by decide, by decide, by decide, by decide, by decide, by decide,
    by decide, by decide,
    multiplyMatrices_worker_count_independent 2 3 (blockOwner 3 2) (roundRobinOwner 3)
      [0, 2, 1] [2, 1, 0] [fin 1, fin 2, fin 3] [fin 5, fin 6] [nan, nan, nan, nan, nan, nan]
      3 1 2 (by decide) (by decide) (by decide) (by decide) (by decide) (by decide)
      (by decide) (by decide) (by decide) (by decide)⟩

/-- The buffer `[1, 0, 0, 1]` is the `2 × 2` identity matrix. -/
theorem identity2 : ∀ k j : Int, 0 ≤ k → k < 2 → 0 ≤ j → j < 2 →
    readCell [fin 1, fin 0, fin 0, fin 1] (k * 2 + j) = some (if k = j then 1 else 0) := by
  intro k j hk0 hk1 hj0 hj1
  interval_cases k <;> interval_cases j <;> decide!

/-- The identity case at a `2 × 2` matrix of finite doubles, one of them not an
integer. -/
theorem multiplyMatrices_identity_witness :
    ((([fin 1, fin (-2), fin (3 / 8), fin 4] : List Dbl).length : Int) = 2 * 2) ∧
    (∀ x ∈ ([fin 1, fin (-2), fin (3 / 8), fin 4] : List Dbl), x.isFinite = true) ∧
    ((([fin 1, fin 0, fin 0, fin 1] : List Dbl).length : Int) = 2 * 2) ∧
    (∀ k j : Int, 0 ≤ k → k < 2 → 0 ≤ j → j < 2 →
      readCell [fin 1, fin 0, fin 0, fin 1] (k * 2 + j) = some (if k = j then 1 else 0)) ∧
    ((2 : Int) * 2 ≤ (([nan, nan, nan, nan] : List Dbl).length : Int)) ∧
    ((2 : Int) * 2 ≤ INT_MAX + 1) ∧ ((2 : Int) * 2 ≤ INT_MAX + 1) ∧
    ∃ s, multiplyMatrices [fin 1, fin (-2), fin (3 / 8), fin 4] [fin 1, fin 0, fin 0, fin 1]
        [nan, nan, nan, nan] 2 2 2 = some s ∧
      ∀ i j : Int, 0 ≤ i → i < 2 → 0 ≤ j → j < 2 →
        readCell s.C (i * 2 + j) = readCell [fin 1, fin (-2), fin (3 / 8), fin 4] (i * 2 + j) :=
  ⟨by decide, by decide!, by decide, identity2, by decide, by decide, by decide,
    multiplyMatrices_identity [fin 1, fin (-2), fin (3 / 8), fin 4] [fin 1, fin 0, fin 0, fin 1]
      [nan, nan, nan, nan] 2 2 (by decide) (by decide!) (by decide) identity2 (by decide)
      (by decide) (by decide)⟩

/-- The zero case with a zero `A` and a finite `B`. -/
theorem multiplyMatrices_zero_witness :
    ((([fin 0, fin 0] : List Dbl).length : Int) = 1 * 2) ∧
    ((([fin 5, fin (-6)] : List Dbl).length : Int) = 2 * 1) ∧
    ((1 : Int) * 1 ≤ (([nan] : List Dbl).length : Int)) ∧
    ((1 : Int) * 2 ≤ INT_MAX + 1) ∧ ((2 : Int) * 1 ≤ INT_MAX + 1) ∧
    ((1 : Int) * 1 ≤ INT_MAX + 1) ∧
    (∀ x ∈ ([fin 0, fin 0] : List Dbl), x.isFinite = true) ∧
    (∀ y ∈ ([fin 5, fin (-6)] : List Dbl), y.isFinite = true) ∧
    ((∀ x ∈ ([fin 0, fin 0] : List Dbl), x = 0) ∨ (∀ y ∈ ([fin 5, fin (-6)] : List Dbl), y = 0)) ∧
    ∃ s, multiplyMatrices [fin 0, fin 0] [fin 5, fin (-6)] [nan] 1 2 1 = some s ∧
      ∀ i j : Int, 0 ≤ i → i < 1 → 0 ≤ j → j < 1 → readCell s.C (i * 1 + j) = some 0 :=
  ⟨by decide, by decide, by decide, by decide, by decide, by decide, by decide!, by decide!,
    Or.inl (by decide!),
    multiplyMatrices_zero [fin 0, fin 0] [fin 5, fin (-6)] [nan] 1 2 1 (by decide) (by decide)
      (by decide) (by decide) (by decide) (by decide) (by decide!) (by decide!)
      (Or.inl (by decide!))⟩

/-- The range theorem for `RAND_MAX = 32767` and a generator that stays within
`0 .. 32767`. -/
theorem initializeMatrix_range_witness :
    (0 : Int) < 32767 ∧ (32767 : Int) ≤ INT_MAX ∧
    (∀ n : Nat, 0 ≤ ((n : Int) * 20000) % 32768 ∧ ((n : Int) * 20000) % 32768 ≤ 32767) ∧
    (0 : Int) < 1 ∧ (0 : Int) < 2 ∧
    ((([nan, nan] : List Dbl).length : Int) = 1 * 2) ∧
    ((1 : Int) * 2 ≤ INT_MAX + 1) ∧
    ∃ m1, initializeMatrix 32767 (fun n => ((n : Int) * 20000) % 32768) [nan, nan] 0 1 2
        = some (m1, 0 + ((1 : Int) * 2).toNat) ∧
      m1.length = ([nan, nan] : List Dbl).length ∧
      ∀ i j : Int, 0 ≤ i → i < 1 → 0 ≤ j → j < 2 →
        ∃ v : ℚ, readCell m1 (i * 2 + j) = some (fin v) ∧
          fin v = randomCell 32767
            ((fun n : Nat => ((n : Int) * 20000) % 32768) (0 + (i * 2 + j).toNat)) ∧
          0 ≤ v ∧ v ≤ 10 :=
  ⟨by decide, by decide, fun n => by omega, by decide, by decide, by decide, by decide,
    initializeMatrix_range 32767 (fun n => ((n : Int) * 20000) % 32768) [nan, nan] 0 1 2
      (by decide) (by decide) (fun n => by beta_reduce; omega) (by decide) (by decide)
      (by decide) (by decide)⟩

end Witnesses

end Entrega
